import Mathlib

/-!
Verification of the dependency-aware orchestration core of the
parallel-codegen-orchestrator repository.

The Python sources are shallowly embedded as executable Lean definitions:

* `src/graph/dependency_graph.py` → `DependencyGraph`, `buildG`, `getReadyTasks`,
  `markCompleted`, `graphIsActive`, `addTask`, `copyG`, `rebuildG`.
  The stdlib `graphlib.TopologicalSorter` collaborator is embedded by its
  documented contract (`TopoSorter` below): `prepare()` raises `CycleError`
  exactly when the supplied edge map contains a cycle, `get_ready()` hands out
  each node exactly once when all of its predecessors are done, `done()`
  validates that every id was added and currently passed out, and `is_active()`
  is true while passed-out nodes are unfinished or nodes are ready.
* `src/graph/validator.py` → `detectCycles` (the DFS of `_detect_cycles` /
  `_dfs_cycle_detect`), `missingRefs`, `orphanedTasks`, `validate`.
* `src/orchestrator/dynamic_deps.py` → `DynamicDependencyManager`,
  `addDynamicTasks`, `wouldCreateCycle`, `validateDepsExist`.
* `src/orchestrator/orchestrator.py` → `processTick`, `orchestrate`,
  `processTickET` (the early-termination variant's per-tick result loop).
* `src/orchestrator/retry.py` → `classifyError`, `executeWithRetry`.
* `src/agents/agent_pool.py` → `ManagedAgent`, `markBusy`, `markIdle`,
  `markFailed`, `resetAgent`, `getIdleAgent`.
* `src/orchestrator/task_executor.py` → `executeTask`.

Machine-level details that carry no claim-relevant behaviour (timestamps,
log calls, float durations, the opaque remote-execution payloads) are omitted;
Python `set` values are embedded as deduplicated lists (claims only use
membership), and Python exceptions become `Except` results carrying a `PyErr`.
-/

deriving instance DecidableEq for Except

namespace PCOrch

abbrev TaskId := String

/-- The edge map of a dependency graph: an insertion-ordered dictionary from a
task id to the (deduplicated) list of its prerequisite ids, embedding the
Python `dict[str, set[str]]` held in `DependencyGraph.graph`. -/
abbrev Graph := List (TaskId × List TaskId)

/-- Keys of the edge map (`graph.keys()` in the source). -/
def keysOf (g : Graph) : List TaskId := g.map Prod.fst

/-- Dependencies recorded for a task, or the empty set when the id is not a
key (`graph.get(node, set())` in the source). -/
def lookupDeps (g : Graph) (t : TaskId) : List TaskId := (g.lookup t).getD []

/-- All nodes: the keys together with every id mentioned as a dependency.
This is the node set over which both `graphlib.TopologicalSorter` and the
validator's DFS operate (`all_nodes` in `_detect_cycles`). -/
def allNodes (g : Graph) : List TaskId :=
  (g.map Prod.fst ++ (g.map Prod.snd).flatten).dedup

/-- The dependency relation: `edgeR g u v` when `v` is a recorded
prerequisite of `u`. -/
def edgeR (g : Graph) (u v : TaskId) : Prop := v ∈ lookupDeps g u

instance (g : Graph) (u v : TaskId) : Decidable (edgeR g u v) := by
  unfold edgeR; infer_instance

/-- A graph contains a cycle when some node reaches itself through at least
one dependency edge. -/
def HasCycle (g : Graph) : Prop := ∃ u, Relation.TransGen (edgeR g) u u

/-! ### The validator's DFS cycle detector (`_dfs_cycle_detect`) -/

/-- The mutable traversal state of `GraphValidator`: `_visited`, `_rec_stack`
(a set, embedded as a list used only through membership) and `_path`. -/
structure DfsState where
  visited : List TaskId
  recStack : List TaskId
  path : List TaskId
  deriving DecidableEq

/-- Entering a node: `visited.add(node); rec_stack.add(node); path.append(node)`. -/
def pushNode (n : TaskId) (st : DfsState) : DfsState :=
  { visited := n :: st.visited, recStack := n :: st.recStack, path := st.path ++ [n] }

/-- Normal exit from a node: `rec_stack.remove(node); path.pop()`. -/
def popNode (n : TaskId) (st : DfsState) : DfsState :=
  { st with recStack := st.recStack.erase n, path := st.path.dropLast }

/-- The cycle extracted on a back edge:
`[*path[path.index(dep):], dep]` in the source. -/
def cycleFrom (p : List TaskId) (d : TaskId) : List TaskId :=
  p.drop (p.indexOf d) ++ [d]

/-- The dependency loop inside `_dfs_cycle_detect`, with the recursive call
for an unvisited dependency supplied as `recurse` (it is instantiated with the
detector at one unit less fuel; the fuel only bounds the recursion depth and
is chosen large enough to never run out). -/
def dfsChildren (recurse : TaskId → DfsState → Option (List TaskId) × DfsState) :
    List TaskId → TaskId → DfsState → Option (List TaskId) × DfsState
  | [], node, st => (none, popNode node st)
  | d :: rest, node, st =>
    if d ∉ st.visited then
      match recurse d st with
      | (some c, st') => (some c, st')
      | (none, st') => dfsChildren recurse rest node st'
    else if d ∈ st.recStack then
      (some (cycleFrom st.path d), st)
    else
      dfsChildren recurse rest node st

/-- `_dfs_cycle_detect(node)`: push the node, walk its dependencies. -/
def dfsDetect (g : Graph) : Nat → TaskId → DfsState → Option (List TaskId) × DfsState
  | 0, _, st => (none, st)
  | fuel + 1, node, st =>
    dfsChildren (dfsDetect g fuel) (lookupDeps g node) node (pushNode node st)

/-- The outer loop of `_detect_cycles`: start a DFS from every not-yet-visited
node, collecting every returned cycle.  As in the source, the traversal state
(including a partially unwound `_path`/`_rec_stack` left behind by a found
cycle) is carried from one root to the next. -/
def detectLoop (g : Graph) : List TaskId → DfsState → List (List TaskId) × DfsState
  | [], st => ([], st)
  | n :: rest, st =>
    if n ∉ st.visited then
      match dfsDetect g (allNodes g).length n st with
      | (some c, st') =>
        let (cs, st'') := detectLoop g rest st'
        (c :: cs, st'')
      | (none, st') => detectLoop g rest st'
    else
      detectLoop g rest st

/-- `GraphValidator._detect_cycles`: empty graph short-circuits, otherwise DFS
from every node with fresh state. -/
def detectCycles (g : Graph) : List (List TaskId) :=
  if g.isEmpty then [] else (detectLoop g (allNodes g) ⟨[], [], []⟩).1

/-! ### Exceptions -/

/-- The exception kinds raised by the embedded modules. -/
inductive PyErr where
  | valueError (msg : String)
  | cycleDetectedError (msg : String)
  | dynamicTaskRegistrationError (msg : String) (taskId : Option TaskId)
  | orchestrationError (msg : String) (taskId : Option TaskId)
  deriving DecidableEq

/-! ### The topological execution engine (`graphlib.TopologicalSorter`)

The sorter is embedded functionally by the observable state it maintains for
the `DependencyGraph` wrapper: the frozen edge map handed to the constructor,
the set of ids currently passed out of `get_ready()` and not yet `done()`
(graphlib's `_NODE_OUT` nodes, with `npassedout - nfinished = handedOut.length`),
and the set of ids marked `done()` (`_NODE_DONE`).  A node whose remaining
predecessor count has reached zero and which has not been flushed is exactly a
node all of whose dependencies are finished and which is neither passed out nor
finished, so `get_ready()` returns that set and moves it into `handedOut`. -/

structure TopoSorter where
  tsGraph : Graph
  handedOut : List TaskId
  finished : List TaskId
  deriving DecidableEq

/-- The nodes `get_ready()` would hand out now: every dependency finished,
not already passed out, not already done. -/
def readyList (s : TopoSorter) : List TaskId :=
  (allNodes s.tsGraph).filter fun u =>
    decide ((∀ d ∈ lookupDeps s.tsGraph u, d ∈ s.finished) ∧
      u ∉ s.handedOut ∧ u ∉ s.finished)

/-- `TopologicalSorter.get_ready()`: flush the ready set, marking it passed
out. -/
def sorterGetReady (s : TopoSorter) : List TaskId × TopoSorter :=
  let r := readyList s
  (r, { s with handedOut := s.handedOut ++ r })

/-- `TopologicalSorter.is_active()`: `nfinished < npassedout or bool(ready)`. -/
def sorterIsActive (s : TopoSorter) : Bool :=
  !s.handedOut.isEmpty || !(readyList s).isEmpty

/-- `TopologicalSorter.done(*nodes)`: process the ids left to right; reject an
id that was never added, one that is merely pending (not passed out), or one
already done; move an accepted id from passed-out to finished. -/
def sorterDone : TopoSorter → List TaskId → Except String TopoSorter
  | s, [] => .ok s
  | s, t :: rest =>
    if t ∉ allNodes s.tsGraph then
      .error ("node " ++ t ++ " was not added using add()")
    else if t ∉ s.handedOut ∧ t ∉ s.finished then
      .error ("node " ++ t ++ " was not passed out of get_ready()")
    else if t ∈ s.finished then
      .error ("node " ++ t ++ " was already marked done")
    else
      sorterDone { s with handedOut := s.handedOut.erase t,
                          finished := t :: s.finished } rest

/-- `prepare()` raises `CycleError` exactly when the edge map contains a
cycle (graphlib's documented contract); the check is realised with the cycle
decision procedure `detectCycles`, proved below to find a cycle if and only if
`HasCycle` holds. -/
def graphlibHasCycle (g : Graph) : Bool := !(detectCycles g).isEmpty

/-! ### `DependencyGraph` (src/graph/dependency_graph.py) -/

structure DependencyGraph where
  graph : Graph
  sorter : Option TopoSorter
  isBuilt : Bool
  deriving DecidableEq

/-- A freshly constructed `DependencyGraph()`. -/
def emptyDG : DependencyGraph := ⟨[], none, false⟩

/-- `DependencyGraph.add_task`: invalidate any built state, then upsert the
node with a defensive copy of its dependency set. -/
def addTask (dg : DependencyGraph) (tid : TaskId) (deps : List TaskId) :
    DependencyGraph :=
  let dg := if dg.isBuilt then { dg with isBuilt := false, sorter := none } else dg
  { dg with graph := upsert dg.graph tid deps.dedup }
where
  /-- Python dict assignment: replace in place if the key exists, else append. -/
  upsert : Graph → TaskId → List TaskId → Graph
    | [], k, v => [(k, v)]
    | (k', v') :: rest, k, v =>
      if k' = k then (k, v) :: rest else (k', v') :: upsert rest k v

/-- `DependencyGraph.build()`: an empty graph builds trivially; otherwise
construct and prepare the sorter, translating graphlib's `CycleError` into
`CycleDetectedError`.  On failure `_is_built` stays false and the assigned,
never-prepared sorter object is observationally equivalent to `none` (every
wrapper method guards on `_is_built`). -/
def buildG (dg : DependencyGraph) : Except PyErr DependencyGraph :=
  if dg.graph.isEmpty then
    .ok { dg with sorter := some ⟨dg.graph, [], []⟩, isBuilt := true }
  else if graphlibHasCycle dg.graph then
    .error (.cycleDetectedError "Cycle detected in dependency graph: nodes are in a cycle")
  else
    .ok { dg with sorter := some ⟨dg.graph, [], []⟩, isBuilt := true }

/-- `DependencyGraph.get_ready_tasks()`: empty before `build()`, empty when
inactive, otherwise `sorter.get_ready()` (returning the updated graph). -/
def getReadyTasks (dg : DependencyGraph) : List TaskId × DependencyGraph :=
  match dg.sorter with
  | none => ([], dg)
  | some s =>
    if dg.isBuilt = false then ([], dg)
    else if sorterIsActive s = false then ([], dg)
    else
      let (r, s') := sorterGetReady s
      (r, { dg with sorter := some s' })

/-- `DependencyGraph.mark_completed(*task_ids)`: `ValueError` before build,
no-op on an empty id list, otherwise delegate to `sorter.done` re-raising its
`ValueError`. -/
def markCompleted (dg : DependencyGraph) (ids : List TaskId) :
    Except PyErr DependencyGraph :=
  match dg.sorter with
  | none => .error (.valueError "Cannot mark tasks completed before building graph")
  | some s =>
    if dg.isBuilt = false then
      .error (.valueError "Cannot mark tasks completed before building graph")
    else if ids.isEmpty then .ok dg
    else
      match sorterDone s ids with
      | .ok s' => .ok { dg with sorter := some s' }
      | .error m => .error (.valueError m)

/-- `DependencyGraph.is_active()`. -/
def graphIsActive (dg : DependencyGraph) : Bool :=
  match dg.sorter with
  | none => false
  | some s => if dg.isBuilt = false then false else sorterIsActive s

/-- `DependencyGraph.copy()`: deep-copy the edge map only; the copy is
unbuilt. -/
def copyG (dg : DependencyGraph) : DependencyGraph :=
  { graph := dg.graph, sorter := none, isBuilt := false }

/-- `DependencyGraph.rebuild()`: simply `build()` again; the sorter keeps no
completion state across rebuilds. -/
def rebuildG (dg : DependencyGraph) : Except PyErr DependencyGraph := buildG dg

/-! ### `GraphValidator` (src/graph/validator.py) -/

/-- `_check_missing_refs`: ids referenced as dependencies but never defined as
tasks. -/
def missingRefs (g : Graph) : List TaskId :=
  ((g.map Prod.snd).flatten.dedup).filter (fun t => decide (t ∉ keysOf g))

/-- `_find_end_nodes`: defined tasks on which no task depends. -/
def endNodes (g : Graph) : List TaskId :=
  (keysOf g).filter fun t => g.all fun p => decide (t ∉ p.2)

/-- The BFS of `_find_reachable_tasks_from_end_nodes`, walking backward over
the dependency relation.  The fuel bounds the number of queue pops; every pop
either skips an already-reached node or adds a new one and enqueues its
dependencies, so `|allNodes| + Σ|deps| + |endNodes|` pops always suffice. -/
def reachBack (g : Graph) : Nat → List TaskId → List TaskId → List TaskId
  | 0, reachable, _ => reachable
  | _ + 1, reachable, [] => reachable
  | fuel + 1, reachable, cur :: queue =>
    if cur ∈ reachable then reachBack g fuel reachable queue
    else
      reachBack g fuel (cur :: reachable)
        (queue ++ (lookupDeps g cur).filter (fun d => decide (d ∉ reachable)))

/-- `_check_orphaned_tasks`: tasks not reachable backward from any end node
(empty when the graph is empty or has no end nodes). -/
def orphanedTasks (g : Graph) : List TaskId :=
  if g.isEmpty then []
  else
    let ends := endNodes g
    if ends.isEmpty then []
    else
      let fuel := (allNodes g).length + ((g.map fun p => p.2.length).sum) + ends.length + 1
      let reachable := reachBack g fuel [] ends
      (keysOf g).filter fun t => decide (t ∉ reachable)

/-- `ValidationReport` with the fields the claims observe.  `add_error` is the
only operation that clears `is_valid`, and it is called exactly once per
detected cycle, so `is_valid` equals "no cycle was detected". -/
structure ValidationReport where
  is_valid : Bool
  errors : List String
  warnings : List String
  cycles : List (List TaskId)
  missing_refs : List TaskId
  orphaned_tasks : List TaskId
  deriving DecidableEq

/-- `GraphValidator.validate`: detect cycles (each one an error), missing
references (a warning), and — only when no cycle exists — orphaned tasks
(a warning). -/
def validate (g : Graph) : ValidationReport :=
  let cycles := detectCycles g
  let cycleErrors := cycles.map fun c =>
    "Cycle detected: " ++ String.intercalate " -> " c
  let missing := missingRefs g
  let missingWarnings :=
    if missing.isEmpty then []
    else ["Tasks referenced as dependencies but not defined: " ++
      String.intercalate ", " missing]
  let orphaned := if cycles.isEmpty then orphanedTasks g else []
  let orphanWarnings :=
    if orphaned.isEmpty then []
    else ["Orphaned tasks with no path to completion: " ++
      String.intercalate ", " orphaned]
  { is_valid := cycles.isEmpty
    errors := cycleErrors
    warnings := missingWarnings ++ orphanWarnings
    cycles := cycles
    missing_refs := missing
    orphaned_tasks := orphaned }

/-! ### `DynamicDependencyManager` (src/orchestrator/dynamic_deps.py) -/

/-- The `dependencies` entry of a dynamic task's data dictionary: absent,
present but not a set/list, or a collection of ids. -/
inductive DepsField where
  | missing
  | notACollection
  | collection (deps : List TaskId)
  deriving DecidableEq

/-- A dynamic task's data; the prompt/repo payload is opaque to the manager. -/
structure TaskData where
  dependencies : DepsField
  deriving DecidableEq

/-- Manager state: the managed graph, `_completed_tasks`, and
`new_tasks_queue` (FIFO, embedded as a list with enqueue at the back). -/
structure DynamicDependencyManager where
  dep_graph : DependencyGraph
  completed_tasks : List TaskId
  new_tasks_queue : List (TaskId × TaskData)
  deriving DecidableEq

/-- `_would_create_cycle`: copy the live graph, add the one task, try to
build. -/
def wouldCreateCycle (m : DynamicDependencyManager) (tid : TaskId)
    (deps : List TaskId) : Bool :=
  match buildG (addTask (copyG m.dep_graph) tid deps) with
  | .ok _ => false
  | .error _ => true

/-- `_validate_dependencies_exist`: every dependency must already be a key of
the live graph or a previously-completed id. -/
def validateDepsExist (m : DynamicDependencyManager) (tid : TaskId)
    (deps : List TaskId) : Option PyErr :=
  match deps.find? (fun d => decide (d ∉ keysOf m.dep_graph.graph ∧
      d ∉ m.completed_tasks)) with
  | some d =>
    some (.dynamicTaskRegistrationError
      ("Task " ++ tid ++ " depends on non-existent task " ++ d ++
        ". Dependencies must reference existing tasks.") (some tid))
  | none => none

/-- The validation loop of `add_dynamic_tasks`, run over the whole batch
before anything is added: malformed entries raise `ValueError`, a per-task
cycle check raises `DynamicTaskRegistrationError`, then the dependency
existence check runs. -/
def validateBatch (m : DynamicDependencyManager) :
    List (TaskId × TaskData) → Option PyErr
  | [] => none
  | (tid, td) :: rest =>
    match td.dependencies with
    | .missing => some (.valueError ("Task " ++ tid ++ " missing 'dependencies' field"))
    | .notACollection =>
      some (.valueError ("Task " ++ tid ++ " dependencies must be set or list"))
    | .collection deps =>
      let depSet := deps.dedup
      if wouldCreateCycle m tid depSet then
        some (.dynamicTaskRegistrationError
          ("Adding task " ++ tid ++ " would create a cycle in the dependency graph")
          (some tid))
      else
        match validateDepsExist m tid depSet with
        | some e => some e
        | none => validateBatch m rest

/-- The mutation loop of `add_dynamic_tasks`: add every batch entry to the
live graph (entries reaching this point always carry a collection). -/
def applyBatch (dg : DependencyGraph) : List (TaskId × TaskData) → DependencyGraph
  | [] => dg
  | (tid, td) :: rest =>
    match td.dependencies with
    | .collection deps => applyBatch (addTask dg tid deps.dedup) rest
    | _ => applyBatch dg rest

/-- `add_dynamic_tasks(new_tasks)`.  The returned pair is the raised-or-ok
outcome together with the manager state after the call (Python mutates the
manager in place, so state changes survive a raised exception). -/
def addDynamicTasks (m : DynamicDependencyManager)
    (newTasks : List (TaskId × TaskData)) :
    Except PyErr Unit × DynamicDependencyManager :=
  if newTasks.isEmpty then (.ok (), m)
  else
    match validateBatch m newTasks with
    | some e => (.error e, m)
    | none =>
      let dg1 := applyBatch m.dep_graph newTasks
      match rebuildG dg1 with
      | .error e =>
        let msg := match e with
          | .cycleDetectedError s => s
          | _ => ""
        (.error (.dynamicTaskRegistrationError
            ("Unexpected cycle detected during rebuild: " ++ msg) none),
          { m with dep_graph := dg1 })
      | .ok dg2 =>
        (.ok (), { m with dep_graph := dg2,
                          new_tasks_queue := m.new_tasks_queue ++ newTasks })

/-- `mark_task_completed`. -/
def dynMarkTaskCompleted (m : DynamicDependencyManager) (tid : TaskId) :
    DynamicDependencyManager :=
  { m with completed_tasks :=
      if tid ∈ m.completed_tasks then m.completed_tasks
      else tid :: m.completed_tasks }

/-! ### Retry policy (src/orchestrator/retry.py) -/

inductive FailureType where
  | transient
  | permanent
  | unknown
  deriving DecidableEq

/-- A raised Python exception as `classify_error` observes it: an explicit
classification when it is a `RetryableError`, whether its type is one of the
known transient exception classes (timeout / connection errors), and its
message. -/
structure PyExc where
  retryableType : Option FailureType
  transientKind : Bool
  msg : String
  deriving DecidableEq

/-- Substring occurrence on character lists (Python's `pattern in message`). -/
def subOccurs (needle : List Char) : List Char → Bool
  | [] => needle.isEmpty
  | c :: t => needle.isPrefixOf (c :: t) || subOccurs needle t

/-- Python `pattern in error_message` on strings. -/
def strOccurs (needle hay : String) : Bool := subOccurs needle.toList hay.toList

/-- Python `str.lower()` (character-wise lowercasing, written directly over
the character list so that it evaluates by kernel reduction). -/
def toLowerStr (s : String) : String := ⟨s.data.map Char.toLower⟩

def transientPatterns : List String :=
  ["timeout", "connection", "network", "temporary", "rate limit",
   "service unavailable", "try again", "502", "503", "504"]

def permanentPatterns : List String :=
  ["invalid", "unauthorized", "forbidden", "not found", "bad request",
   "400", "401", "403", "404"]

/-- `classify_error`: explicit classification of a `RetryableError`, then
known transient exception types, then the transient keyword list over the
lowercased message, then the permanent keyword list, else `UNKNOWN`. -/
def classifyError (e : PyExc) : FailureType :=
  match e.retryableType with
  | some ft => ft
  | none =>
    if e.transientKind then .transient
    else
      let lower := toLowerStr e.msg
      if transientPatterns.any (fun p => strOccurs p lower) then .transient
      else if permanentPatterns.any (fun p => strOccurs p lower) then .permanent
      else .unknown

/-- One run of `execute_with_retry`'s attempt loop, `remaining` attempts left
with the current attempt numbered `attempt` (1-based).  `fn` maps the attempt
number to that call's outcome.  Returns the final outcome, the number of calls
made to `fn`, and the list of backoff sleeps performed (each
`base * 2 ^ (attempt - 1)`).  `remaining = 0` with no call made models the
`range(1, max_attempts + 1)` loop never running, after which the source raises
its fallback `RuntimeError`. -/
def retryAux {α : Type} (fn : Nat → Except PyExc α) (base : Nat) :
    Nat → Nat → Except PyExc α × Nat × List Nat
  | 0, _ => (.error ⟨none, false, "Retry logic failed unexpectedly"⟩, 0, [])
  | k + 1, attempt =>
    match fn attempt with
    | .ok v => (.ok v, 1, [])
    | .error e =>
      if classifyError e = .permanent then (.error e, 1, [])
      else if k = 0 then (.error e, 1, [])
      else
        let delay := base * 2 ^ (attempt - 1)
        let (res, calls, sleeps) := retryAux fn base k (attempt + 1)
        (res, calls + 1, delay :: sleeps)

/-- `execute_with_retry(task_id, func, max_attempts, base_delay_seconds)`:
run the attempt loop from attempt 1. -/
def executeWithRetry {α : Type} (fn : Nat → Except PyExc α)
    (maxAttempts base : Nat) : Except PyExc α × Nat × List Nat :=
  retryAux fn base maxAttempts 1

/-! ### `AgentPool` (src/agents/agent_pool.py) -/

inductive AgentStatus where
  | idle
  | busy
  | failed
  deriving DecidableEq

/-- A pool slot: 0-based id, status, currently assigned task.  The wrapped
Codegen `Agent` handle is opaque and omitted. -/
structure ManagedAgent where
  id : Nat
  status : AgentStatus
  current_task : Option TaskId
  deriving DecidableEq

/-- `AgentPool.mark_busy(agent, task_id)`: only legal from IDLE. -/
def markBusy (a : ManagedAgent) (tid : TaskId) : Except PyErr ManagedAgent :=
  if a.status ≠ .idle then
    .error (.valueError ("Cannot mark agent " ++ toString a.id ++ " as busy"))
  else
    .ok { a with status := .busy, current_task := some tid }

/-- `AgentPool.mark_idle(agent)`: always legal; clears the task. -/
def markIdle (a : ManagedAgent) : ManagedAgent :=
  { a with status := .idle, current_task := none }

/-- `AgentPool.mark_failed(agent, error)`: always legal; clears the task. -/
def markFailed (a : ManagedAgent) (_error : Option String) : ManagedAgent :=
  { a with status := .failed, current_task := none }

/-- `AgentPool.reset_agent(agent)`: only legal from FAILED. -/
def resetAgent (a : ManagedAgent) : Except PyErr ManagedAgent :=
  if a.status ≠ .failed then
    .error (.valueError ("Cannot reset agent " ++ toString a.id))
  else
    .ok { a with status := .idle, current_task := none }

/-- `AgentPool.get_idle_agent()`: the first IDLE agent in index order. -/
def getIdleAgent (agents : List ManagedAgent) : Option ManagedAgent :=
  agents.find? fun a => a.status = .idle

/-! ### `TaskExecutor.execute_task` (src/orchestrator/task_executor.py) -/

inductive TaskStatus where
  | pending
  | running
  | completed
  | failed
  deriving DecidableEq

/-- A task outcome with the fields the orchestration loop observes
(timestamps, duration, payload and retry count carry no claim-relevant
behaviour). -/
structure TaskResult where
  task_id : TaskId
  status : TaskStatus
  error : Option String
  deriving DecidableEq

/-- Executor state: the pool's agents, the active-task set, and stored
results. -/
structure ExecState where
  agents : List ManagedAgent
  active_tasks : List TaskId
  task_results : List (TaskId × TaskResult)
  deriving DecidableEq

/-- Cleanup events in the order the `finally` blocks run them. -/
inductive ExecEvent where
  | markedIdle (agentId : Nat)
  | removedActive (tid : TaskId)
  deriving DecidableEq

/-- Replace the status/task of the agent with the given id (the Python code
mutates the shared `ManagedAgent` object in place). -/
def setAgent (agents : List ManagedAgent) (aid : Nat) (st : AgentStatus)
    (task : Option TaskId) : List ManagedAgent :=
  agents.map fun a => if a.id = aid then { a with status := st, current_task := task } else a

/-- `TaskExecutor.execute_task(task_id, task_data)` for one call, the
semaphore slot already held.  `outcome` is what the retry-wrapped remote
execution returns or raises.  When no agent is idle, `_wait_for_idle_agent`
polls forever and the call never returns (`none`).  Otherwise the body runs:
add to the active set, mark the chosen agent busy (it is idle, so this cannot
raise), execute, then the inner `finally` releases the agent and the outer
`finally` removes the id from the active set — in that order — before the
result is returned or the exception re-raised. -/
def executeTask (st : ExecState) (tid : TaskId)
    (outcome : Except String TaskResult) :
    Option (Except String TaskResult × ExecState × List ExecEvent) :=
  let active1 := if tid ∈ st.active_tasks then st.active_tasks else st.active_tasks ++ [tid]
  match getIdleAgent st.agents with
  | none => none
  | some a =>
    let busyAgents := setAgent st.agents a.id .busy (some tid)
    match outcome with
    | .ok r =>
      let results1 := st.task_results ++ [(tid, r)]
      let idleAgents := setAgent busyAgents a.id .idle none
      some (.ok r,
        ⟨idleAgents, active1.erase tid, results1⟩,
        [.markedIdle a.id, .removedActive tid])
    | .error e =>
      let idleAgents := setAgent busyAgents a.id .idle none
      some (.error e,
        ⟨idleAgents, active1.erase tid, st.task_results⟩,
        [.markedIdle a.id, .removedActive tid])

/-! ### `TaskOrchestrator` (src/orchestrator/orchestrator.py) -/

/-- The failed `TaskResult` synthesized for a task whose execution raised. -/
def mkFailedResult (tid : TaskId) (msg : String) : TaskResult :=
  ⟨tid, .failed, some msg⟩

/-- The result-processing loop of one `orchestrate()` tick, over the
(ready id, gathered outcome) pairs in dispatch order.  A raised exception
becomes a synthesized failed result and its id is still collected for the
tick's batched `mark_completed`; returned results are appended and their own
`task_id` collected, whether failed or successful. -/
def processTick : List (TaskId × Except String TaskResult) →
    List TaskResult × List TaskId
  | [] => ([], [])
  | (tid, out) :: rest =>
    let (rs, cs) := processTick rest
    match out with
    | .error msg => (mkFailedResult tid msg :: rs, tid :: cs)
    | .ok r =>
      if r.status = .failed then (r :: rs, r.task_id :: cs)
      else (r :: rs, r.task_id :: cs)

/-- The `orchestrate()` loop.  `ex` is the executor oracle giving each
dispatched task's outcome (a returned `TaskResult` or a raised exception
message).  The fuel bounds the number of loop iterations; exhausting it
stands for a loop that never terminates.  The only exception that can escape
the loop body in this embedding is `mark_completed`'s `ValueError`, wrapped —
as any escaped exception is in the source — into an `OrchestrationError`. -/
def orchestrate (ex : TaskId → Except String TaskResult) :
    Nat → DependencyGraph → List TaskResult →
    Except PyErr (List TaskResult) × DependencyGraph
  | 0, dg, _ =>
    (.error (.orchestrationError "loop did not terminate within fuel" none), dg)
  | fuel + 1, dg, results =>
    if graphIsActive dg = false then (.ok results, dg)
    else
      let (ready, dg1) := getReadyTasks dg
      if ready.isEmpty then orchestrate ex fuel dg1 results
      else
        let outs := ready.map ex
        let (entries, cids) := processTick (ready.zip outs)
        if cids.isEmpty then orchestrate ex fuel dg1 (results ++ entries)
        else
          match markCompleted dg1 cids with
          | .ok dg2 => orchestrate ex fuel dg2 (results ++ entries)
          | .error e =>
            let msg := match e with
              | .valueError s => s
              | _ => ""
            (.error (.orchestrationError ("Critical orchestration failure: " ++ msg)
              none), dg1)

/-- The result-processing loop of one `orchestrate_with_early_termination()`
tick.  A failing critical id aborts the whole run with an
`OrchestrationError` carrying that id.  Otherwise a raised exception becomes a
synthesized failed result, and a returned result is appended — but only a
result whose status is not FAILED has its id collected for `mark_completed`. -/
def processTickET (critical : List TaskId) :
    List (TaskId × Except String TaskResult) →
    Except PyErr (List TaskResult × List TaskId)
  | [] => .ok ([], [])
  | (tid, out) :: rest =>
    let isFailed := match out with
      | .error _ => true
      | .ok r => r.status = .failed
    if tid ∈ critical ∧ isFailed = true then
      let msg := match out with
        | .error m => m
        | .ok r => r.error.getD ""
      .error (.orchestrationError ("Critical task '" ++ tid ++ "' failed: " ++ msg)
        (some tid))
    else
      let contrib : List TaskResult × List TaskId :=
        match out with
        | .error msg => ([mkFailedResult tid msg], [])
        | .ok r => ([r], if r.status ≠ .failed then [r.task_id] else [])
      match processTickET critical rest with
      | .error e => .error e
      | .ok (rs, cs) => .ok (contrib.1 ++ rs, contrib.2 ++ cs)

/-! ### Specification-level definitions used by the theorems -/

/-- The claim C2 protocol: repeatedly fetch the ready set and mark all of it
completed, collecting the per-round ready sets, until the ready set is empty.
The fuel bounds the number of rounds. -/
def drainRounds : DependencyGraph → Nat → List (List TaskId)
  | _, 0 => []
  | dg, fuel + 1 =>
    let (r, dg1) := getReadyTasks dg
    if r.isEmpty then []
    else
      match markCompleted dg1 r with
      | .ok dg2 => r :: drainRounds dg2 fuel
      | .error _ => []

/-- How many nodes of the graph a DFS has not yet visited. -/
def unvisitedCount (g : Graph) (visited : List TaskId) : Nat :=
  ((allNodes g).filter fun x => decide (x ∉ visited)).length

/-- The finished ("black") nodes of a DFS — visited and off the recursion
stack — are closed under dependency edges (into black nodes) and lie on no
cycle. -/
def Black (g : Graph) (visited recStack : List TaskId) : Prop :=
  ∀ b ∈ visited, b ∉ recStack →
    (∀ d, edgeR g b d → d ∈ visited ∧ d ∉ recStack) ∧
    ¬ Relation.TransGen (edgeR g) b b

/-- The structural part of the DFS invariant, maintained by every run of the
detector (even after a found cycle leaves `_path`/`_rec_stack` partially
unwound): the recursion stack and the path hold the same ids, without
duplicates, and only visited ids. -/
structure SyncInv (st : DfsState) : Prop where
  sync : ∀ x, x ∈ st.recStack ↔ x ∈ st.path
  pathNodup : st.path.Nodup
  stackNodup : st.recStack.Nodup
  pathVisited : ∀ x ∈ st.path, x ∈ st.visited

/-- The full invariant of an uninterrupted (no cycle found yet) DFS run. -/
structure DfsInv (g : Graph) (st : DfsState) : Prop where
  toSync : SyncInv st
  chain : st.path.Chain' (edgeR g)
  black : Black g st.visited st.recStack

/-- A concrete executor oracle used to witness the orchestration-loop
theorems: task "a" raises, every other task returns a completed result under
its own id. -/
def exWitness : TaskId → Except String TaskResult := fun tid =>
  if tid = "a" then .error "boom" else .ok ⟨tid, .completed, none⟩

/-- A concrete always-failing attempt oracle whose error is classified
permanent ("Invalid input"). -/
def retryFnPermanent : Nat → Except PyExc Unit :=
  fun _ => .error ⟨none, false, "Invalid input"⟩

/-- A concrete always-failing attempt oracle whose error is classified
transient ("Connection timeout"). -/
def retryFnTransient : Nat → Except PyExc Unit :=
  fun _ => .error ⟨none, false, "Connection timeout"⟩

/-! ## Theorems

### Basic facts about the edge map -/

theorem lookup_mem {α β : Type} [DecidableEq α] {g : List (α × β)} {t : α} {l : β}
    (h : g.lookup t = some l) : (t, l) ∈ g := by
  induction g with
  | nil => simp [List.lookup] at h
  | cons p rest ih =>
    obtain ⟨k, v⟩ := p
    by_cases hk : t = k
    · subst hk
      simp [List.lookup] at h
      subst h
      exact List.mem_cons_self _ _
    · have hbeq : (t == k) = false := beq_false_of_ne hk
      simp [List.lookup, hbeq] at h
      exact List.mem_cons_of_mem _ (ih h)

/-- The first step of a transitive chain. -/
theorem transGen_head {α : Type} {r : α → α → Prop} {a c : α}
    (h : Relation.TransGen r a c) : ∃ b, r a b := by
  induction h with
  | single h => exact ⟨_, h⟩
  | tail _ _ ih => exact ih

theorem edge_mem_left {g : Graph} {u v : TaskId} (h : edgeR g u v) :
    u ∈ allNodes g := by
  unfold edgeR lookupDeps at h
  cases hl : g.lookup u with
  | none => rw [hl] at h; simp at h
  | some l =>
    have hm := lookup_mem hl
    unfold allNodes
    rw [List.mem_dedup, List.mem_append]
    exact Or.inl (List.mem_map_of_mem Prod.fst hm)

theorem edge_mem_right {g : Graph} {u v : TaskId} (h : edgeR g u v) :
    v ∈ allNodes g := by
  unfold edgeR lookupDeps at h
  cases hl : g.lookup u with
  | none => rw [hl] at h; simp at h
  | some l =>
    rw [hl] at h; simp at h
    have hm := lookup_mem hl
    unfold allNodes
    rw [List.mem_dedup, List.mem_append]
    refine Or.inr (List.mem_flatten.mpr ⟨l, List.mem_map_of_mem Prod.snd hm, h⟩)

theorem allNodes_nodup (g : Graph) : (allNodes g).Nodup := List.nodup_dedup _

theorem noCycle_of_empty : ¬ HasCycle [] := by
  rintro ⟨u, h⟩
  obtain ⟨b, hb⟩ := transGen_head h
  simp [edgeR, lookupDeps, List.lookup] at hb

/-- A node outside `allNodes` has no outgoing edge, hence lies on no cycle. -/
theorem noCycle_outside {g : Graph} {u : TaskId} (hu : u ∉ allNodes g) :
    ¬ Relation.TransGen (edgeR g) u u := by
  intro h
  obtain ⟨b, hb⟩ := transGen_head h
  exact hu (edge_mem_left hb)

/-- Pigeonhole: if every member of a nonempty finite node set has a
dependency edge back into the set, the graph has a cycle. -/
theorem cycle_of_succ {g : Graph} {U : List TaskId} (hne : U ≠ [])
    (h : ∀ u ∈ U, ∃ d, edgeR g u d ∧ d ∈ U) : HasCycle g := by
  classical
  have hf : ∀ u : {x // x ∈ U}, ∃ d : {x // x ∈ U}, edgeR g u.1 d.1 := by
    rintro ⟨u, hu⟩
    obtain ⟨d, hd, hdU⟩ := h u hu
    exact ⟨⟨d, hdU⟩, hd⟩
  choose f hf using hf
  obtain ⟨u0, hu0⟩ := List.exists_mem_of_ne_nil U hne
  let seq : ℕ → {x // x ∈ U} := fun n => Nat.rec ⟨u0, hu0⟩ (fun _ prev => f prev) n
  have hstep : ∀ n, edgeR g (seq n).1 (seq (n + 1)).1 := fun n => hf (seq n)
  have hmono : ∀ m n, m < n → Relation.TransGen (edgeR g) (seq m).1 (seq n).1 := by
    intro m n hmn
    induction n with
    | zero => omega
    | succ k ih =>
      rcases Nat.lt_or_ge m k with hk | hk
      · exact (ih hk).tail (hstep k)
      · have : m = k := by omega
        subst this
        exact Relation.TransGen.single (hstep m)
  have hfin : Finite {x // x ∈ U} := by
    have hs : ({ x | x ∈ U } : Set TaskId).Finite := U.finite_toSet
    exact hs.to_subtype
  obtain ⟨m, n, hmn, heq⟩ := Finite.exists_ne_map_eq_of_infinite seq
  rcases Nat.lt_or_ge m n with hlt | hge
  · refine ⟨(seq n).1, ?_⟩
    have hmn' := hmono m n hlt
    rwa [heq] at hmn'
  · have hlt : n < m := by omega
    refine ⟨(seq m).1, ?_⟩
    have hmn' := hmono n m hlt
    rwa [← heq] at hmn'

/-- Everything reachable from a black node is black. -/
theorem black_reach {g : Graph} {V R : List TaskId} (hB : Black g V R)
    {b x : TaskId} (hbV : b ∈ V) (hbR : b ∉ R)
    (h : Relation.TransGen (edgeR g) b x) : x ∈ V ∧ x ∉ R := by
  induction h with
  | single h1 => exact ((hB b hbV hbR).1 _ h1)
  | tail _ h1 ih => exact ((hB _ ih.1 ih.2).1 _ h1)

/-- Filtering out one more present, not-yet-excluded element of a
duplicate-free list shrinks the filtered length by exactly one. -/
theorem filter_notMem_cons_length {l : List TaskId} {v : List TaskId} {n : TaskId}
    (hl : l.Nodup) (hn : n ∈ l) (hnv : n ∉ v) :
    (l.filter fun x => decide (x ∉ (n :: v))).length + 1
      = (l.filter fun x => decide (x ∉ v)).length := by
  induction l with
  | nil => simp at hn
  | cons a rest ih =>
    rw [List.nodup_cons] at hl
    rw [List.filter_cons, List.filter_cons]
    by_cases ha : a = n
    · subst ha
      rw [if_neg (by simp : ¬ (decide (a ∉ (a :: v)) = true)),
        if_pos (by simp [hnv] : decide (a ∉ v) = true)]
      have hcongr : rest.filter (fun x => decide (x ∉ (a :: v)))
          = rest.filter (fun x => decide (x ∉ v)) := by
        apply List.filter_congr
        intro x hx
        have hxa : x ≠ a := fun hxe => hl.1 (hxe ▸ hx)
        simp [List.mem_cons, hxa]
      rw [hcongr, List.length_cons]
    · have hn' : n ∈ rest := by
        cases hn with
        | head => exact absurd rfl ha
        | tail _ h => exact h
      have hrec := ih hl.2 hn'
      by_cases hav : a ∈ v
      · rw [if_neg (by simp [List.mem_cons, hav] : ¬ (decide (a ∉ (n :: v)) = true)),
          if_neg (by simp [hav] : ¬ (decide (a ∉ v) = true))]
        exact hrec
      · rw [if_pos (by simp [List.mem_cons, hav, ha] : decide (a ∉ (n :: v)) = true),
          if_pos (by simp [hav] : decide (a ∉ v) = true)]
        rw [List.length_cons, List.length_cons]
        omega

/-- Pushing a fresh graph node shrinks the unvisited count by exactly one. -/
theorem count_push {g : Graph} {v : List TaskId} {n : TaskId}
    (hn : n ∈ allNodes g) (hnv : n ∉ v) :
    unvisitedCount g (n :: v) + 1 = unvisitedCount g v :=
  filter_notMem_cons_length (allNodes_nodup g) hn hnv

/-- Growing the visited set cannot grow the unvisited count. -/
theorem count_mono {g : Graph} {v v' : List TaskId} (h : ∀ x ∈ v, x ∈ v') :
    unvisitedCount g v' ≤ unvisitedCount g v := by
  unfold unvisitedCount
  refine List.Sublist.length_le (List.monotone_filter_right _ ?_)
  intro a ha
  rw [decide_eq_true_eq] at ha ⊢
  exact fun hav => ha (h a hav)

/-- An unvisited graph node witnesses a positive unvisited count. -/
theorem count_pos {g : Graph} {v : List TaskId} {n : TaskId}
    (hn : n ∈ allNodes g) (hnv : n ∉ v) : 0 < unvisitedCount g v := by
  unfold unvisitedCount
  have : n ∈ (allNodes g).filter fun x => decide (x ∉ v) := by
    rw [List.mem_filter]
    exact ⟨hn, by simpa using hnv⟩
  exact List.length_pos.mpr (List.ne_nil_of_mem this)

/-- Decomposing the first step of a transitive chain. -/
theorem transGen_cases {α : Type} {r : α → α → Prop} {a c : α}
    (h : Relation.TransGen r a c) :
    r a c ∨ ∃ b, r a b ∧ Relation.TransGen r b c := by
  induction h with
  | single h1 => exact Or.inl h1
  | tail _ h1 ih =>
    rcases ih with h2 | ⟨x, hax, hxb⟩
    · exact Or.inr ⟨_, h2, Relation.TransGen.single h1⟩
    · exact Or.inr ⟨x, hax, hxb.tail h1⟩

/-- A relational chain reaches its last element reflexively-transitively. -/
theorem chain_rtg {α : Type} {r : α → α → Prop} :
    ∀ (l : List α) (a b : α), List.Chain r a l → (a :: l).getLast? = some b →
      Relation.ReflTransGen r a b := by
  intro l
  induction l with
  | nil =>
    intro a b _ hlast
    simp at hlast
    subst hlast
    exact Relation.ReflTransGen.refl
  | cons c l ih =>
    intro a b hch hlast
    rw [List.chain_cons] at hch
    have hlast' : (c :: l).getLast? = some b := by
      simpa [List.getLast?] using hlast
    exact Relation.ReflTransGen.head hch.1 (ih c b hch.2 hlast')

/-- A back edge from the end of an edge chain to one of its members closes a
cycle. -/
theorem cycle_of_backedge {g : Graph} {p : List TaskId} {node d : TaskId}
    (hch : p.Chain' (edgeR g)) (hlast : p.getLast? = some node) (hd : d ∈ p)
    (hedge : edgeR g node d) : HasCycle g := by
  obtain ⟨s, t, rfl⟩ := List.mem_iff_append.mp hd
  have hch2 : (d :: t).Chain' (edgeR g) := ((List.chain'_append).mp hch).2.1
  have hlast2 : (d :: t).getLast? = some node := by
    rwa [List.getLast?_append_of_ne_nil _ (by simp)] at hlast
  have hchain : List.Chain (edgeR g) d t := hch2
  have hrtg : Relation.ReflTransGen (edgeR g) d node := chain_rtg t d node hchain hlast2
  exact ⟨d, Relation.TransGen.tail' hrtg hedge⟩

/-- Invariant lemma for the dependency loop of `_dfs_cycle_detect` in an
uninterrupted run: assuming the detector behaves correctly at the remaining
fuel (`IH`), walking the remaining dependencies of `node` either reports a
graph that really has a cycle or exits normally, popping `node` and leaving
the invariant intact. -/
theorem dfsChildren_go (g : Graph) (fuel : Nat)
    (IH : ∀ node st, DfsInv g st → node ∈ allNodes g → node ∉ st.visited →
      (st.path = [] ∨ ∃ y, st.path.getLast? = some y ∧ edgeR g y node) →
      unvisitedCount g st.visited ≤ fuel →
      (∀ c st', dfsDetect g fuel node st = (some c, st') → HasCycle g) ∧
      (∀ st', dfsDetect g fuel node st = (none, st') →
        DfsInv g st' ∧ st'.recStack = st.recStack ∧ st'.path = st.path ∧
        (∀ x ∈ st.visited, x ∈ st'.visited) ∧ node ∈ st'.visited)) :
    ∀ deps node st, DfsInv g st →
      node ∈ st.recStack →
      st.path.getLast? = some node →
      (∀ d ∈ deps, edgeR g node d) →
      (∀ d, edgeR g node d → d ∈ deps ∨ (d ∈ st.visited ∧ d ∉ st.recStack)) →
      unvisitedCount g st.visited ≤ fuel →
      (∀ c st', dfsChildren (dfsDetect g fuel) deps node st = (some c, st') →
        HasCycle g) ∧
      (∀ st', dfsChildren (dfsDetect g fuel) deps node st = (none, st') →
        DfsInv g st' ∧ st'.recStack = st.recStack.erase node ∧
        st'.path = st.path.dropLast ∧
        (∀ x ∈ st.visited, x ∈ st'.visited) ∧ node ∈ st'.visited) := by
  intro deps
  induction deps with
  | nil =>
    intro node st hInv hnode hlast hdeps hproc hcount
    obtain ⟨sync, pathNodup, stackNodup, pathVisited⟩ := hInv.toSync
    have hdblack : ∀ d, edgeR g node d → d ∈ st.visited ∧ d ∉ st.recStack := by
      intro d hd
      rcases hproc d hd with h | h
      · simp at h
      · exact h
    constructor
    · intro c st' h
      simp [dfsChildren] at h
    · intro st' h
      simp only [dfsChildren] at h
      injection h with h1 h2
      subst h2
      obtain ⟨q, hq⟩ := List.getLast?_eq_some_iff.mp hlast
      have hqnodup : q.Nodup ∧ node ∉ q := by
        rw [hq, List.nodup_append] at pathNodup
        exact ⟨pathNodup.1, fun hmem => pathNodup.2.2 hmem (by simp)⟩
      have hdrop : st.path.dropLast = q := by rw [hq, List.dropLast_concat]
      refine ⟨⟨⟨?_, ?_, ?_, ?_⟩, ?_, ?_⟩, rfl, rfl, fun x hx => hx, pathVisited node (by rw [hq]; simp)⟩
      · -- sync of popped state
        intro x
        simp only [popNode, hdrop]
        rw [List.Nodup.mem_erase_iff stackNodup]
        constructor
        · rintro ⟨hxn, hxs⟩
          have := (sync x).mp hxs
          rw [hq, List.mem_append] at this
          rcases this with h | h
          · exact h
          · simp at h; exact absurd h hxn
        · intro hxq
          refine ⟨fun hxe => hqnodup.2 (hxe ▸ hxq), (sync x).mpr ?_⟩
          rw [hq, List.mem_append]; exact Or.inl hxq
      · simpa [popNode, hdrop] using hqnodup.1
      · exact List.Nodup.erase _ stackNodup
      · intro x hx
        simp only [popNode, hdrop] at hx
        exact pathVisited x (by rw [hq, List.mem_append]; exact Or.inl hx)
      · -- chain of popped path
        simp only [popNode, hdrop]
        have := hInv.chain
        rw [hq, List.chain'_append] at this
        exact this.1
      · -- black after popping node
        intro b hbV hbR
        simp only [popNode] at hbR
        by_cases hbn : b = node
        · subst hbn
          refine ⟨fun d hd => ⟨(hdblack d hd).1, fun hmem => (hdblack d hd).2 (List.mem_of_mem_erase hmem)⟩, ?_⟩
          intro hcyc
          rcases transGen_cases hcyc with h1 | ⟨x, hx, hxc⟩
          · exact (hdblack b h1).2 hnode
          · have hxblack := hdblack x hx
            have := black_reach hInv.black hxblack.1 hxblack.2 hxc
            exact this.2 hnode
        · have hbR' : b ∉ st.recStack := by
            intro hmem
            exact hbR ((List.Nodup.mem_erase_iff stackNodup).mpr ⟨hbn, hmem⟩)
          obtain ⟨hclo, hnc⟩ := hInv.black b hbV hbR'
          exact ⟨fun d hd => ⟨(hclo d hd).1, fun hmem => (hclo d hd).2 (List.mem_of_mem_erase hmem)⟩, hnc⟩
  | cons d rest ih =>
    intro node st hInv hnode hlast hdeps hproc hcount
    have hedged : edgeR g node d := hdeps d (by simp)
    by_cases hd : d ∈ st.visited
    · by_cases hdr : d ∈ st.recStack
      · -- back edge: the run returns a (genuine) cycle
        have hred : dfsChildren (dfsDetect g fuel) (d :: rest) node st
            = (some (cycleFrom st.path d), st) := by
          simp only [dfsChildren]
          rw [if_neg (not_not_intro hd), if_pos hdr]
        have hcyc : HasCycle g :=
          cycle_of_backedge hInv.chain hlast ((hInv.toSync.sync d).mp hdr) hedged
        constructor
        · intro c st' _; exact hcyc
        · intro st' h
          rw [hred] at h
          simp at h
      · -- dependency already black: continue
        have hred : dfsChildren (dfsDetect g fuel) (d :: rest) node st
            = dfsChildren (dfsDetect g fuel) rest node st := by
          simp only [dfsChildren]
          rw [if_neg (not_not_intro hd), if_neg hdr]
        have hproc' : ∀ x, edgeR g node x →
            x ∈ rest ∨ (x ∈ st.visited ∧ x ∉ st.recStack) := by
          intro x hx
          rcases hproc x hx with h | h
          · rcases List.mem_cons.mp h with rfl | h'
            · exact Or.inr ⟨hd, hdr⟩
            · exact Or.inl h'
          · exact Or.inr h
        have hstep := ih node st hInv hnode hlast
          (fun x hx => hdeps x (List.mem_cons_of_mem _ hx)) hproc' hcount
        rw [hred]
        exact hstep
    · -- unvisited dependency: recurse into it
      have hdall : d ∈ allNodes g := edge_mem_right hedged
      have hIHd := IH d st hInv hdall hd (Or.inr ⟨node, hlast, hedged⟩) hcount
      rcases hres : dfsDetect g fuel d st with ⟨o, st₂⟩
      cases o with
      | some c =>
        have hred : dfsChildren (dfsDetect g fuel) (d :: rest) node st = (some c, st₂) := by
          simp only [dfsChildren]
          rw [if_pos hd, hres]
        have hcyc : HasCycle g := hIHd.1 c st₂ hres
        constructor
        · intro c' st' _; exact hcyc
        · intro st' h
          rw [hred] at h
          simp at h
      | none =>
        obtain ⟨hInv₂, hrs₂, hp₂, hmono₂, hdvis₂⟩ := hIHd.2 st₂ hres
        have hred : dfsChildren (dfsDetect g fuel) (d :: rest) node st
            = dfsChildren (dfsDetect g fuel) rest node st₂ := by
          simp only [dfsChildren]
          rw [if_pos hd, hres]
        have hdnotR : d ∉ st.recStack := by
          intro hmem
          exact hd (hInv.toSync.pathVisited d ((hInv.toSync.sync d).mp hmem))
        have hproc₂ : ∀ x, edgeR g node x →
            x ∈ rest ∨ (x ∈ st₂.visited ∧ x ∉ st₂.recStack) := by
          intro x hx
          rcases hproc x hx with h | h
          · rcases List.mem_cons.mp h with rfl | h'
            · exact Or.inr ⟨hdvis₂, hrs₂ ▸ hdnotR⟩
            · exact Or.inl h'
          · exact Or.inr ⟨hmono₂ x h.1, hrs₂ ▸ h.2⟩
        have hstep := ih node st₂ hInv₂ (hrs₂ ▸ hnode) (hp₂ ▸ hlast)
          (fun x hx => hdeps x (List.mem_cons_of_mem _ hx)) hproc₂
          (le_trans (count_mono hmono₂) hcount)
        constructor
        · intro c st' h
          rw [hred] at h
          exact hstep.1 c st' h
        · intro st' h
          rw [hred] at h
          obtain ⟨hInv', hrs', hp', hmono', hnodevis'⟩ := hstep.2 st' h
          exact ⟨hInv', by rw [hrs', hrs₂], by rw [hp', hp₂],
            fun x hx => hmono' x (hmono₂ x hx), hnodevis'⟩

/-- Every cycle the detector extracts from the traversal path starts and ends
with the node that closed the back edge. -/
theorem cycleFrom_spec {p : List TaskId} {d : TaskId} (hd : d ∈ p) :
    cycleFrom p d ≠ [] ∧ (cycleFrom p d).head? = some d ∧
      (cycleFrom p d).getLast? = some d := by
  have hlt : p.indexOf d < p.length := List.indexOf_lt_length.mpr hd
  have hdropne : p.drop (p.indexOf d) ≠ [] := by
    intro h
    have := congrArg List.length h
    rw [List.length_drop] at this
    simp at this
    omega
  refine ⟨by simp [cycleFrom], ?_, by simp [cycleFrom, List.getLast?_concat]⟩
  unfold cycleFrom
  rw [List.head?_append_of_ne_nil _ hdropne, List.head?_drop,
    List.getElem?_eq_getElem hlt]
  have hg : p[p.indexOf d] = d := by
    have hig := List.indexOf_get (l := p) (a := d) hlt
    simpa [List.get_eq_getElem] using hig
  rw [hg]

/-- Pushing a fresh node preserves the structural invariant. -/
theorem syncPush {st : DfsState} {node : TaskId} (h : SyncInv st)
    (hnv : node ∉ st.visited) : SyncInv (pushNode node st) := by
  obtain ⟨sync, pathNodup, stackNodup, pathVisited⟩ := h
  have hnpath : node ∉ st.path := fun hmem => hnv (pathVisited node hmem)
  have hnstack : node ∉ st.recStack := fun hmem => hnpath ((sync node).mp hmem)
  refine ⟨?_, ?_, ?_, ?_⟩
  · intro x
    simp only [pushNode, List.mem_cons, List.mem_append, List.mem_singleton]
    rw [sync x]
    tauto
  · simp only [pushNode]
    rw [List.nodup_append]
    exact ⟨pathNodup, List.nodup_singleton node,
      fun a ha hb => by simp at hb; exact hnpath (hb ▸ ha)⟩
  · simp only [pushNode]
    exact List.nodup_cons.mpr ⟨hnstack, stackNodup⟩
  · intro x hx
    simp only [pushNode, List.mem_append, List.mem_singleton] at hx
    rcases hx with h | h
    · exact List.mem_cons_of_mem _ (pathVisited x h)
    · simp [pushNode, h]

/-- Popping the node at the end of the path preserves the structural
invariant. -/
theorem syncPop {st : DfsState} {node : TaskId} (h : SyncInv st)
    (hnode : node ∈ st.recStack) (hlast : st.path.getLast? = some node) :
    SyncInv (popNode node st) := by
  obtain ⟨sync, pathNodup, stackNodup, pathVisited⟩ := h
  obtain ⟨q, hq⟩ := List.getLast?_eq_some_iff.mp hlast
  have hqnodup : q.Nodup ∧ node ∉ q := by
    rw [hq, List.nodup_append] at pathNodup
    exact ⟨pathNodup.1, fun hmem => pathNodup.2.2 hmem (by simp)⟩
  have hdrop : st.path.dropLast = q := by rw [hq, List.dropLast_concat]
  refine ⟨?_, ?_, ?_, ?_⟩
  · intro x
    simp only [popNode, hdrop]
    rw [List.Nodup.mem_erase_iff stackNodup]
    constructor
    · rintro ⟨hxn, hxs⟩
      have := (sync x).mp hxs
      rw [hq, List.mem_append] at this
      rcases this with h | h
      · exact h
      · simp at h; exact absurd h hxn
    · intro hxq
      refine ⟨fun hxe => hqnodup.2 (hxe ▸ hxq), (sync x).mpr ?_⟩
      rw [hq, List.mem_append]; exact Or.inl hxq
  · simpa [popNode, hdrop] using hqnodup.1
  · exact List.Nodup.erase _ stackNodup
  · intro x hx
    simp only [popNode, hdrop] at hx
    exact pathVisited x (by rw [hq, List.mem_append]; exact Or.inl hx)

/-- Structural lemma for the dependency loop, valid in every run (also after
an earlier cycle left the traversal state partially unwound): any cycle it
returns starts and ends with the same id, the structural invariant is
preserved, and a normal exit pops exactly `node`. -/
theorem dfsChildren_weak (g : Graph) (fuel : Nat)
    (IH : ∀ node st, SyncInv st → node ∉ st.visited →
      ∀ o st', dfsDetect g fuel node st = (o, st') →
        SyncInv st' ∧ (∀ x ∈ st.visited, x ∈ st'.visited) ∧
        (∀ c, o = some c → c ≠ [] ∧ c.head? = c.getLast?) ∧
        (o = none → st'.path = st.path ∧ st'.recStack = st.recStack)) :
    ∀ deps node st, SyncInv st → node ∈ st.recStack →
      st.path.getLast? = some node →
      ∀ o st', dfsChildren (dfsDetect g fuel) deps node st = (o, st') →
        SyncInv st' ∧ (∀ x ∈ st.visited, x ∈ st'.visited) ∧
        (∀ c, o = some c → c ≠ [] ∧ c.head? = c.getLast?) ∧
        (o = none → st'.path = st.path.dropLast ∧
          st'.recStack = st.recStack.erase node) := by
  intro deps
  induction deps with
  | nil =>
    intro node st hSync hnode hlast o st' h
    simp only [dfsChildren] at h
    injection h with h1 h2
    subst h1; subst h2
    exact ⟨syncPop hSync hnode hlast, fun x hx => hx, by simp, fun _ => ⟨rfl, rfl⟩⟩
  | cons d rest ih =>
    intro node st hSync hnode hlast o st' h
    by_cases hd : d ∈ st.visited
    · by_cases hdr : d ∈ st.recStack
      · have hred : dfsChildren (dfsDetect g fuel) (d :: rest) node st
            = (some (cycleFrom st.path d), st) := by
          simp only [dfsChildren]
          rw [if_neg (not_not_intro hd), if_pos hdr]
        rw [hred] at h
        injection h with h1 h2
        subst h1; subst h2
        refine ⟨hSync, fun x hx => hx, ?_, by simp⟩
        intro c hc
        injection hc with hc
        subst hc
        obtain ⟨h1, h2, h3⟩ := cycleFrom_spec ((hSync.sync d).mp hdr)
        exact ⟨h1, h2.trans h3.symm⟩
      · have hred : dfsChildren (dfsDetect g fuel) (d :: rest) node st
            = dfsChildren (dfsDetect g fuel) rest node st := by
          simp only [dfsChildren]
          rw [if_neg (not_not_intro hd), if_neg hdr]
        rw [hred] at h
        exact ih node st hSync hnode hlast o st' h
    · rcases hres : dfsDetect g fuel d st with ⟨o₂, st₂⟩
      obtain ⟨hSync₂, hmono₂, hsome₂, hnone₂⟩ := IH d st hSync hd o₂ st₂ hres
      cases o₂ with
      | some c =>
        have hred : dfsChildren (dfsDetect g fuel) (d :: rest) node st = (some c, st₂) := by
          simp only [dfsChildren]
          rw [if_pos hd, hres]
        rw [hred] at h
        injection h with h1 h2
        subst h1; subst h2
        refine ⟨hSync₂, hmono₂, ?_, by simp⟩
        intro c' hc'
        injection hc' with hc'
        subst hc'
        exact hsome₂ c rfl
      | none =>
        obtain ⟨hp₂, hrs₂⟩ := hnone₂ rfl
        have hred : dfsChildren (dfsDetect g fuel) (d :: rest) node st
            = dfsChildren (dfsDetect g fuel) rest node st₂ := by
          simp only [dfsChildren]
          rw [if_pos hd, hres]
        rw [hred] at h
        obtain ⟨hSync', hmono', hsome', hnone'⟩ :=
          ih node st₂ hSync₂ (hrs₂ ▸ hnode) (hp₂ ▸ hlast) o st' h
        refine ⟨hSync', fun x hx => hmono' x (hmono₂ x hx), hsome', ?_⟩
        intro ho
        obtain ⟨hp', hrs'⟩ := hnone' ho
        exact ⟨by rw [hp', hp₂], by rw [hrs', hrs₂]⟩

/-- Structural lemma for `_dfs_cycle_detect` itself, valid in every run. -/
theorem dfsDetect_weak (g : Graph) :
    ∀ fuel node st, SyncInv st → node ∉ st.visited →
      ∀ o st', dfsDetect g fuel node st = (o, st') →
        SyncInv st' ∧ (∀ x ∈ st.visited, x ∈ st'.visited) ∧
        (∀ c, o = some c → c ≠ [] ∧ c.head? = c.getLast?) ∧
        (o = none → st'.path = st.path ∧ st'.recStack = st.recStack) := by
  intro fuel
  induction fuel with
  | zero =>
    intro node st hSync _ o st' h
    simp only [dfsDetect] at h
    injection h with h1 h2
    subst h1; subst h2
    exact ⟨hSync, fun x hx => hx, by simp, fun _ => ⟨rfl, rfl⟩⟩
  | succ f IHf =>
    intro node st hSync hnv o st' h
    simp only [dfsDetect] at h
    obtain ⟨hSync', hmono', hsome', hnone'⟩ :=
      dfsChildren_weak g f IHf (lookupDeps g node) node (pushNode node st)
        (syncPush hSync hnv) (by simp [pushNode])
        (by simp [pushNode, List.getLast?_concat]) o st' h
    refine ⟨hSync', fun x hx => hmono' x (by simp [pushNode, hx]), hsome', ?_⟩
    intro ho
    obtain ⟨hp', hrs'⟩ := hnone' ho
    constructor
    · rw [hp']; simp [pushNode]
    · rw [hrs']; simp [pushNode]

/-- Correctness of an uninterrupted `_dfs_cycle_detect` run: with sufficient
fuel it either returns a cycle only when the graph really has one, or returns
normally having visited `node`, restored `_path`/`_rec_stack`, and kept the
invariant. -/
theorem dfsDetect_spec (g : Graph) :
    ∀ fuel node st, DfsInv g st → node ∈ allNodes g → node ∉ st.visited →
      (st.path = [] ∨ ∃ y, st.path.getLast? = some y ∧ edgeR g y node) →
      unvisitedCount g st.visited ≤ fuel →
      (∀ c st', dfsDetect g fuel node st = (some c, st') → HasCycle g) ∧
      (∀ st', dfsDetect g fuel node st = (none, st') →
        DfsInv g st' ∧ st'.recStack = st.recStack ∧ st'.path = st.path ∧
        (∀ x ∈ st.visited, x ∈ st'.visited) ∧ node ∈ st'.visited) := by
  intro fuel
  induction fuel with
  | zero =>
    intro node st _ hall hnv _ hcount
    have := count_pos (v := st.visited) hall hnv
    omega
  | succ f IHf =>
    intro node st hInv hall hnv hext hcount
    obtain ⟨sync, pathNodup, stackNodup, pathVisited⟩ := hInv.toSync
    have hnpath : node ∉ st.path := fun hmem => hnv (pathVisited node hmem)
    have hnstack : node ∉ st.recStack := fun hmem => hnpath ((sync node).mp hmem)
    have hInv₁ : DfsInv g (pushNode node st) := by
      refine ⟨⟨?_, ?_, ?_, ?_⟩, ?_, ?_⟩
      · intro x
        simp only [pushNode, List.mem_cons, List.mem_append, List.mem_singleton]
        rw [sync x]
        tauto
      · simp only [pushNode]
        rw [List.nodup_append]
        exact ⟨pathNodup, List.nodup_singleton node,
          fun a ha hb => by simp at hb; exact hnpath (hb ▸ ha)⟩
      · simp only [pushNode]
        exact List.nodup_cons.mpr ⟨hnstack, stackNodup⟩
      · intro x hx
        simp only [pushNode, List.mem_append, List.mem_singleton] at hx
        rcases hx with h | h
        · exact List.mem_cons_of_mem _ (pathVisited x h)
        · simp [pushNode, h]
      · simp only [pushNode]
        rw [List.chain'_append]
        refine ⟨hInv.chain, List.chain'_singleton node, ?_⟩
        intro y hy z hz
        simp at hz
        subst hz
        rcases hext with h | ⟨y₀, hy₀, hedge⟩
        · rw [h] at hy; simp at hy
        · rw [hy₀] at hy
          simp at hy
          exact hy ▸ hedge
      · intro b hbV hbR
        simp only [pushNode, List.mem_cons] at hbV hbR
        push_neg at hbR
        rcases hbV with rfl | hbV
        · exact absurd rfl hbR.1
        · obtain ⟨hclo, hnc⟩ := hInv.black b hbV hbR.2
          refine ⟨fun x hx => ?_, hnc⟩
          obtain ⟨hxV, hxR⟩ := hclo x hx
          have hxn : x ≠ node := fun hxe => hnv (hxe ▸ hxV)
          exact ⟨List.mem_cons_of_mem _ hxV, by simp [pushNode, List.mem_cons, hxn, hxR]⟩
    have hcount₁ : unvisitedCount g (pushNode node st).visited ≤ f := by
      have := count_push (v := st.visited) hall hnv
      simp only [pushNode]
      omega
    have hmain := dfsChildren_go g f IHf (lookupDeps g node) node (pushNode node st)
      hInv₁ (by simp [pushNode]) (by simp [pushNode, List.getLast?_concat])
      (fun x hx => hx) (fun x hx => Or.inl hx) hcount₁
    constructor
    · intro c st' h
      simp only [dfsDetect] at h
      exact hmain.1 c st' h
    · intro st' h
      simp only [dfsDetect] at h
      obtain ⟨hInv', hrs', hp', hmono', hnodevis'⟩ := hmain.2 st' h
      refine ⟨hInv', ?_, ?_, ?_, hnodevis'⟩
      · rw [hrs']; simp [pushNode]
      · rw [hp']; simp [pushNode]
      · intro x hx
        exact hmono' x (by simp [pushNode, hx])

/-- The unvisited count never exceeds the number of graph nodes. -/
theorem count_le (g : Graph) (v : List TaskId) :
    unvisitedCount g v ≤ (allNodes g).length :=
  List.length_filter_le _ _

/-- Every cycle collected by the outer loop of `_detect_cycles` starts and
ends with the same id, in every run. -/
theorem detectLoop_weak (g : Graph) :
    ∀ pending st, SyncInv st →
      ∀ cs st', detectLoop g pending st = (cs, st') →
        ∀ c ∈ cs, c ≠ [] ∧ c.head? = c.getLast? := by
  intro pending
  induction pending with
  | nil =>
    intro st _ cs st' h c hc
    simp only [detectLoop] at h
    injection h with h1 _
    subst h1
    simp at hc
  | cons n rest ih =>
    intro st hSync cs st' h
    simp only [detectLoop] at h
    by_cases hn : n ∈ st.visited
    · rw [if_neg (not_not_intro hn)] at h
      exact ih st hSync cs st' h
    · rw [if_pos hn] at h
      rcases hres : dfsDetect g (allNodes g).length n st with ⟨o, st₂⟩
      obtain ⟨hSync₂, _, hsome₂, _⟩ := dfsDetect_weak g _ n st hSync hn o st₂ hres
      simp only [hres] at h
      cases o with
      | some c =>
        rcases hrec : detectLoop g rest st₂ with ⟨cs₂, st₃⟩
        simp only [hrec] at h
        injection h with h1 h2
        subst h1
        intro c' hc'
        rcases List.mem_cons.mp hc' with rfl | hmem
        · exact hsome₂ c' rfl
        · exact ih st₂ hSync₂ cs₂ st₃ hrec c' hmem
      | none =>
        exact ih st₂ hSync₂ cs st' h

/-- Clean-run lemma for the outer loop of `_detect_cycles`: until the first
cycle is found the full invariant is maintained, so a nonempty cycle list
certifies a real cycle and an empty one certifies that every pending node
ended up black. -/
theorem detectLoop_clean (g : Graph) :
    ∀ pending st, DfsInv g st → st.path = [] → st.recStack = [] →
      (∀ n ∈ pending, n ∈ allNodes g) →
      ∀ cs st', detectLoop g pending st = (cs, st') →
        (cs ≠ [] → HasCycle g) ∧
        (cs = [] → DfsInv g st' ∧ st'.path = [] ∧ st'.recStack = [] ∧
          (∀ x ∈ st.visited, x ∈ st'.visited) ∧
          ∀ n ∈ pending, n ∈ st'.visited) := by
  intro pending
  induction pending with
  | nil =>
    intro st hInv hpath hstack _ cs st' h
    simp only [detectLoop] at h
    injection h with h1 h2
    subst h1; subst h2
    exact ⟨fun hne => absurd rfl hne,
      fun _ => ⟨hInv, hpath, hstack, fun x hx => hx, by simp⟩⟩
  | cons n rest ih =>
    intro st hInv hpath hstack hpend cs st' h
    simp only [detectLoop] at h
    by_cases hn : n ∈ st.visited
    · rw [if_neg (not_not_intro hn)] at h
      obtain ⟨h1, h2⟩ := ih st hInv hpath hstack (fun x hx => hpend x (by simp [hx])) cs st' h
      refine ⟨h1, fun hcs => ?_⟩
      obtain ⟨hInv', hp', hs', hmono', hpend'⟩ := h2 hcs
      refine ⟨hInv', hp', hs', hmono', ?_⟩
      intro x hx
      rcases List.mem_cons.mp hx with rfl | hmem
      · exact hmono' x hn
      · exact hpend' x hmem
    · rw [if_pos hn] at h
      have hspec := dfsDetect_spec g (allNodes g).length n st hInv
        (hpend n (by simp)) hn (Or.inl hpath) (count_le g _)
      rcases hres : dfsDetect g (allNodes g).length n st with ⟨o, st₂⟩
      simp only [hres] at h
      cases o with
      | some c =>
        have hcyc : HasCycle g := hspec.1 c st₂ hres
        rcases hrec : detectLoop g rest st₂ with ⟨cs₂, st₃⟩
        simp only [hrec] at h
        injection h with h1 _
        subst h1
        exact ⟨fun _ => hcyc, fun hcs => by simp at hcs⟩
      | none =>
        obtain ⟨hInv₂, hrs₂, hp₂, hmono₂, hnvis₂⟩ := hspec.2 st₂ hres
        obtain ⟨h1, h2⟩ := ih st₂ hInv₂ (hp₂ ▸ hpath) (hrs₂ ▸ hstack)
          (fun x hx => hpend x (by simp [hx])) cs st' h
        refine ⟨h1, fun hcs => ?_⟩
        obtain ⟨hInv', hp', hs', hmono', hpend'⟩ := h2 hcs
        refine ⟨hInv', hp', hs', fun x hx => hmono' x (hmono₂ x hx), ?_⟩
        intro x hx
        rcases List.mem_cons.mp hx with rfl | hmem
        · exact hmono' x hnvis₂
        · exact hpend' x hmem

/-- Soundness and completeness of the validator's cycle detector: it reports
at least one cycle precisely when the graph has one. -/
theorem detectCycles_iff (g : Graph) : detectCycles g ≠ [] ↔ HasCycle g := by
  unfold detectCycles
  by_cases hemp : g.isEmpty
  · rw [if_pos hemp]
    have : g = [] := List.isEmpty_iff.mp hemp
    subst this
    simp [noCycle_of_empty]
  · rw [if_neg hemp]
    have hInv0 : DfsInv g ⟨[], [], []⟩ := by
      refine ⟨⟨?_, ?_, ?_, ?_⟩, ?_, ?_⟩ <;> simp [Black]
    rcases hloop : detectLoop g (allNodes g) ⟨[], [], []⟩ with ⟨cs, st'⟩
    obtain ⟨h1, h2⟩ := detectLoop_clean g (allNodes g) ⟨[], [], []⟩ hInv0 rfl rfl
      (fun x hx => hx) cs st' hloop
    simp only
    constructor
    · exact h1
    · intro hcyc
      intro hcs
      obtain ⟨hInv', _, hs', _, hall'⟩ := h2 hcs
      obtain ⟨u, hu⟩ := hcyc
      obtain ⟨b, hb⟩ := transGen_head hu
      have huall : u ∈ allNodes g := edge_mem_left hb
      have huvis : u ∈ st'.visited := hall' u huall
      have hblack := hInv'.black u huvis (by rw [hs']; simp)
      exact hblack.2 hu

/-- Every cycle `_detect_cycles` reports is a path whose first and last
entries coincide. -/
theorem detectCycles_first_last (g : Graph) :
    ∀ c ∈ detectCycles g, c ≠ [] ∧ c.head? = c.getLast? := by
  intro c hc
  unfold detectCycles at hc
  by_cases hemp : g.isEmpty
  · rw [if_pos hemp] at hc
    simp at hc
  · rw [if_neg hemp] at hc
    have hSync0 : SyncInv ⟨[], [], []⟩ := by
      refine ⟨?_, ?_, ?_, ?_⟩ <;> simp
    rcases hloop : detectLoop g (allNodes g) ⟨[], [], []⟩ with ⟨cs, st'⟩
    rw [hloop] at hc
    exact detectLoop_weak g (allNodes g) ⟨[], [], []⟩ hSync0 cs st' hloop c hc

/-! ### The topological drain (claims C2, C3, C10) -/

theorem mem_readyList {s : TopoSorter} {u : TaskId} :
    u ∈ readyList s ↔ u ∈ allNodes s.tsGraph ∧
      (∀ d ∈ lookupDeps s.tsGraph u, d ∈ s.finished) ∧
      u ∉ s.handedOut ∧ u ∉ s.finished := by
  unfold readyList
  rw [List.mem_filter]
  simp only [decide_eq_true_eq]

theorem readyList_nodup (s : TopoSorter) : (readyList s).Nodup :=
  List.Nodup.filter _ (allNodes_nodup _)

/-- Kahn progress: an acyclic graph with unfinished nodes and nothing passed
out always has a ready node. -/
theorem ready_progress {G : Graph} {f : List TaskId} (hnc : ¬ HasCycle G)
    {u0 : TaskId} (hu0 : u0 ∈ allNodes G) (hu0f : u0 ∉ f) :
    readyList ⟨G, [], f⟩ ≠ [] := by
  intro hempty
  set U := (allNodes G).filter (fun x => decide (x ∉ f)) with hU
  have hmemU : ∀ x, x ∈ U ↔ x ∈ allNodes G ∧ x ∉ f := by
    intro x
    rw [hU, List.mem_filter]
    simp
  have hUne : U ≠ [] :=
    List.ne_nil_of_mem ((hmemU u0).mpr ⟨hu0, hu0f⟩)
  apply hnc
  apply cycle_of_succ hUne
  intro u huU
  obtain ⟨huAll, huf⟩ := (hmemU u).mp huU
  by_cases hdeps : ∀ d ∈ lookupDeps G u, d ∈ f
  · have : u ∈ readyList ⟨G, [], f⟩ :=
      mem_readyList.mpr ⟨huAll, hdeps, by simp, huf⟩
    rw [hempty] at this
    simp at this
  · push_neg at hdeps
    obtain ⟨d, hd, hdf⟩ := hdeps
    exact ⟨d, hd, (hmemU d).mpr ⟨edge_mem_right hd, hdf⟩⟩

/-- Erasing, in order, every element of a duplicate-free list from itself
leaves nothing. -/
theorem foldl_erase_self : ∀ {r : List TaskId}, r.Nodup → r.foldl List.erase r = [] := by
  intro r
  induction r with
  | nil => intro _; rfl
  | cons t rest ih =>
    intro h
    rw [List.nodup_cons] at h
    have h1 : (t :: rest).erase t = rest := List.erase_cons_head t rest
    calc (t :: rest).foldl List.erase (t :: rest)
        = rest.foldl List.erase ((t :: rest).erase t) := rfl
      _ = rest.foldl List.erase rest := by rw [h1]
      _ = [] := ih h.2

/-- `TopologicalSorter.done` on a batch of currently-passed-out, unfinished,
duplicate-free ids succeeds, erasing them from the passed-out set and
prepending them (in reverse order) to the finished set. -/
theorem sorterDone_batch {G : Graph} :
    ∀ (r h f : List TaskId), r.Nodup → (∀ t ∈ r, t ∈ allNodes G) →
      (∀ t ∈ r, t ∉ f) → (∀ t ∈ r, t ∈ h) →
      sorterDone ⟨G, h, f⟩ r = .ok ⟨G, r.foldl List.erase h, r.reverse ++ f⟩ := by
  intro r
  induction r with
  | nil => intro h f _ _ _ _; simp [sorterDone]
  | cons t rest ih =>
    intro h f hnd hall hnf hh
    rw [List.nodup_cons] at hnd
    have ht1 : t ∈ allNodes G := hall t (by simp)
    have ht2 : t ∈ h := hh t (by simp)
    have ht3 : t ∉ f := hnf t (by simp)
    have hstep : sorterDone ⟨G, h, f⟩ (t :: rest)
        = sorterDone ⟨G, h.erase t, t :: f⟩ rest := by
      simp only [sorterDone]
      rw [if_neg (not_not_intro ht1), if_neg (by push_neg; intro h'; exact absurd ht2 h'),
        if_neg ht3]
    rw [hstep, ih (h.erase t) (t :: f) hnd.2 (fun x hx => hall x (by simp [hx]))
      (fun x hx => by
        simp only [List.mem_cons, not_or]
        refine ⟨fun hxe => ?_, hnf x (by simp [hx])⟩
        rw [hxe] at hx
        exact hnd.1 hx)
      (fun x hx => by
        have hxt : x ≠ t := fun hxe => by rw [hxe] at hx; exact hnd.1 hx
        exact (List.mem_erase_of_ne hxt).mpr (hh x (by simp [hx])))]
    simp [List.append_assoc]

/-- `get_ready_tasks` on a built graph with nothing passed out and an empty
ready set reports inactivity and returns the empty tuple. -/
theorem getReadyTasks_inactive {G : Graph} {f : List TaskId}
    (hr : readyList ⟨G, [], f⟩ = []) :
    getReadyTasks ⟨G, some ⟨G, [], f⟩, true⟩ = ([], ⟨G, some ⟨G, [], f⟩, true⟩) := by
  have hact : sorterIsActive ⟨G, [], f⟩ = false := by
    simp [sorterIsActive, hr]
  simp [getReadyTasks, hact]

/-- `get_ready_tasks` on a built graph with nothing passed out and a nonempty
ready set flushes the ready set into the passed-out set. -/
theorem getReadyTasks_active {G : Graph} {f : List TaskId}
    (hr : readyList ⟨G, [], f⟩ ≠ []) :
    getReadyTasks ⟨G, some ⟨G, [], f⟩, true⟩
      = (readyList ⟨G, [], f⟩, ⟨G, some ⟨G, readyList ⟨G, [], f⟩, f⟩, true⟩) := by
  have hact : sorterIsActive ⟨G, [], f⟩ = true := by
    simp [sorterIsActive, List.isEmpty_iff, hr]
  simp [getReadyTasks, hact, sorterGetReady]

/-- Marking the freshly flushed ready batch succeeds and moves it wholesale
into the finished set. -/
theorem markCompleted_round {G : Graph} {f : List TaskId}
    (hr : readyList ⟨G, [], f⟩ ≠ []) :
    markCompleted ⟨G, some ⟨G, readyList ⟨G, [], f⟩, f⟩, true⟩ (readyList ⟨G, [], f⟩)
      = .ok ⟨G, some ⟨G, [], (readyList ⟨G, [], f⟩).reverse ++ f⟩, true⟩ := by
  set r := readyList ⟨G, [], f⟩ with hrdef
  have hdone : sorterDone ⟨G, r, f⟩ r = .ok ⟨G, r.foldl List.erase r, r.reverse ++ f⟩ := by
    apply sorterDone_batch r r f (readyList_nodup _)
    · intro t ht; exact (mem_readyList.mp ht).1
    · intro t ht; exact (mem_readyList.mp ht).2.2.2
    · intro t ht; exact ht
  rw [foldl_erase_self (readyList_nodup _)] at hdone
  simp [markCompleted, List.isEmpty_iff, hr, hdone]

/-- Invariant lemma for the C2 drain: on an acyclic graph the drained rounds
cover exactly the not-yet-finished nodes, without repetition, and every
dependency of a node drained in round `i` was finished beforehand. -/
theorem drainRounds_spec (G : Graph) (hnc : ¬ HasCycle G) :
    ∀ fuel (f : List TaskId), f.Nodup → (∀ t ∈ f, t ∈ allNodes G) →
      (allNodes G).length - f.length < fuel →
      (drainRounds ⟨G, some ⟨G, [], f⟩, true⟩ fuel).flatten.Nodup ∧
      (∀ t, t ∈ (drainRounds ⟨G, some ⟨G, [], f⟩, true⟩ fuel).flatten ↔
        t ∈ allNodes G ∧ t ∉ f) ∧
      (∀ i u, u ∈ (drainRounds ⟨G, some ⟨G, [], f⟩, true⟩ fuel).getD i [] →
        ∀ d, edgeR G u d →
          d ∈ f ∨ d ∈ ((drainRounds ⟨G, some ⟨G, [], f⟩, true⟩ fuel).take i).flatten) := by
  intro fuel
  induction fuel with
  | zero => intro f _ _ h; omega
  | succ s ih =>
    intro f hfnd hfall hcount
    by_cases hr : readyList ⟨G, [], f⟩ = []
    · have hrounds : drainRounds ⟨G, some ⟨G, [], f⟩, true⟩ (s + 1) = [] := by
        simp only [drainRounds, getReadyTasks_inactive hr]
        simp [hr]
      rw [hrounds]
      refine ⟨by simp, ?_, by simp⟩
      intro t
      simp only [List.flatten_nil, List.not_mem_nil, false_iff, not_and, not_not]
      intro htall
      by_contra htf
      exact (ready_progress hnc htall htf) hr
    · set r := readyList ⟨G, [], f⟩ with hrdef
      have hrounds : drainRounds ⟨G, some ⟨G, [], f⟩, true⟩ (s + 1)
          = r :: drainRounds ⟨G, some ⟨G, [], r.reverse ++ f⟩, true⟩ s := by
        simp only [drainRounds, getReadyTasks_active hr]
        rw [if_neg (by simpa [List.isEmpty_iff] using hr), markCompleted_round hr]
      have hrmem : ∀ t ∈ r, t ∈ allNodes G ∧ (∀ d ∈ lookupDeps G t, d ∈ f) ∧ t ∉ f := by
        intro t ht
        obtain ⟨h1, h2, _, h4⟩ := mem_readyList.mp ht
        exact ⟨h1, h2, h4⟩
      have hrne : r.length ≥ 1 := by
        cases hrl : r with
        | nil => exact absurd hrl hr
        | cons a l => simp [hrl]
      have hf'nd : (r.reverse ++ f).Nodup := by
        rw [List.nodup_append]
        exact ⟨List.nodup_reverse.mpr (readyList_nodup _), hfnd,
          fun a ha hb => (hrmem a (List.mem_reverse.mp ha)).2.2 hb⟩
      have hf'all : ∀ t ∈ r.reverse ++ f, t ∈ allNodes G := by
        intro t ht
        rcases List.mem_append.mp ht with h | h
        · exact (hrmem t (List.mem_reverse.mp h)).1
        · exact hfall t h
      have hf'len : r.length + f.length ≤ (allNodes G).length := by
        have := (List.subperm_of_subset hf'nd hf'all).length_le
        simpa [List.length_append, List.length_reverse] using this
      have hcount' : (allNodes G).length - (r.reverse ++ f).length < s := by
        rw [List.length_append, List.length_reverse]
        omega
      obtain ⟨ihnd, ihmem, ihord⟩ := ih (r.reverse ++ f) hf'nd hf'all hcount'
      set rest := drainRounds ⟨G, some ⟨G, [], r.reverse ++ f⟩, true⟩ s with hrest
      rw [hrounds]
      refine ⟨?_, ?_, ?_⟩
      · -- nodup
        rw [List.flatten_cons, List.nodup_append]
        refine ⟨readyList_nodup _, ihnd, ?_⟩
        intro a ha hb
        have := (ihmem a).mp hb
        exact this.2 (List.mem_append.mpr (Or.inl (List.mem_reverse.mpr ha)))
      · -- membership
        intro t
        rw [List.flatten_cons, List.mem_append]
        constructor
        · rintro (h | h)
          · exact ⟨(hrmem t h).1, (hrmem t h).2.2⟩
          · obtain ⟨h1, h2⟩ := (ihmem t).mp h
            exact ⟨h1, fun hf => h2 (List.mem_append.mpr (Or.inr hf))⟩
        · rintro ⟨h1, h2⟩
          by_cases htr : t ∈ r
          · exact Or.inl htr
          · refine Or.inr ((ihmem t).mpr ⟨h1, ?_⟩)
            rw [List.mem_append]
            push_neg
            exact ⟨fun hm => htr (List.mem_reverse.mp hm), h2⟩
      · -- prerequisite ordering
        intro i u hu d hd
        cases i with
        | zero =>
          simp only [List.getD_cons_zero] at hu
          exact Or.inl ((hrmem u hu).2.1 d hd)
        | succ j =>
          simp only [List.getD_cons_succ] at hu
          rcases ihord j u hu d hd with h | h
          · rcases List.mem_append.mp h with h' | h'
            · refine Or.inr ?_
              rw [List.take_succ_cons, List.flatten_cons, List.mem_append]
              exact Or.inl (List.mem_reverse.mp h')
            · exact Or.inl h'
          · refine Or.inr ?_
            rw [List.take_succ_cons, List.flatten_cons, List.mem_append]
            exact Or.inr h

/-- Successful `build()` yields the freshly prepared sorter and certifies the
edge map acyclic. -/
theorem buildG_ok_inv {dg dg' : DependencyGraph} (h : buildG dg = .ok dg') :
    dg' = { dg with sorter := some ⟨dg.graph, [], []⟩, isBuilt := true } ∧
      ¬ HasCycle dg.graph := by
  unfold buildG at h
  by_cases hemp : dg.graph.isEmpty
  · rw [if_pos hemp] at h
    injection h with h
    refine ⟨h.symm, ?_⟩
    have : dg.graph = [] := List.isEmpty_iff.mp hemp
    rw [this]
    exact noCycle_of_empty
  · rw [if_neg hemp] at h
    by_cases hc : graphlibHasCycle dg.graph
    · rw [if_pos hc] at h
      cases h
    · rw [if_neg hc] at h
      injection h with h
      refine ⟨h.symm, ?_⟩
      intro hcyc
      apply hc
      unfold graphlibHasCycle
      have := (detectCycles_iff dg.graph).mpr hcyc
      simpa [List.isEmpty_iff] using this

/-- `build()` on a cyclic edge map raises `CycleDetectedError`. -/
theorem buildG_cycle {dg : DependencyGraph} (hc : HasCycle dg.graph) :
    ∃ m, buildG dg = .error (.cycleDetectedError m) := by
  unfold buildG
  have hne : dg.graph ≠ [] := by
    intro h
    rw [h] at hc
    exact noCycle_of_empty hc
  rw [if_neg (by simpa [List.isEmpty_iff] using hne)]
  have hgc : graphlibHasCycle dg.graph = true := by
    unfold graphlibHasCycle
    have := (detectCycles_iff dg.graph).mpr hc
    simpa [List.isEmpty_iff] using this
  rw [if_pos hgc]
  exact ⟨_, rfl⟩

/-- `get_ready_tasks()` before `build()` returns the empty tuple. -/
theorem getReadyTasks_unbuilt (dgu : DependencyGraph) (h : dgu.isBuilt = false) :
    (getReadyTasks dgu).1 = [] := by
  unfold getReadyTasks
  cases dgu.sorter with
  | none => rfl
  | some s => simp [h]

/-! ### `mark_completed` error behaviour (claim C10) -/

/-- A batch id that passes all three of `done`'s checks steps the sorter. -/
theorem sorterDone_step {G : Graph} {h f : List TaskId} {x : TaskId}
    (hx1 : x ∈ allNodes G) (hx2 : x ∈ h) (hx3 : x ∉ f) (rest : List TaskId) :
    sorterDone ⟨G, h, f⟩ (x :: rest) = sorterDone ⟨G, h.erase x, x :: f⟩ rest := by
  simp only [sorterDone]
  rw [if_neg (not_not_intro hx1),
    if_neg (by push_neg; intro hc; exact absurd hx2 hc), if_neg hx3]

/-- `done` on an id that is not currently passed out raises `ValueError`
(this covers pending ids whose prerequisites are unfinished, ids already
marked done, and unknown ids). -/
theorem sorterDone_err_notHanded :
    ∀ (ids : List TaskId) (G : Graph) (h f : List TaskId),
      (∃ t ∈ ids, t ∉ h) → ∃ m, sorterDone ⟨G, h, f⟩ ids = .error m := by
  intro ids
  induction ids with
  | nil =>
    intro G h f hex
    obtain ⟨t, ht, _⟩ := hex
    simp at ht
  | cons x rest ih =>
    intro G h f hex
    by_cases hx1 : x ∈ allNodes G
    · by_cases hx2 : x ∉ h ∧ x ∉ f
      · exact ⟨_, by simp only [sorterDone]; rw [if_neg (not_not_intro hx1), if_pos hx2]⟩
      · by_cases hx3 : x ∈ f
        · exact ⟨_, by
            simp only [sorterDone]
            rw [if_neg (not_not_intro hx1), if_neg hx2, if_pos hx3]⟩
        · have hx2' : x ∈ h := by
            by_contra hxh
            exact hx2 ⟨hxh, hx3⟩
          rw [sorterDone_step hx1 hx2' hx3]
          obtain ⟨t, htmem, hth⟩ := hex
          rcases List.mem_cons.mp htmem with rfl | htrest
          · exact absurd hx2' hth
          · exact ih G (h.erase x) (x :: f)
              ⟨t, htrest, fun hmem => hth (List.mem_of_mem_erase hmem)⟩
    · exact ⟨_, by simp only [sorterDone]; rw [if_pos hx1]⟩

/-- `done` on an id already marked done raises `ValueError`. -/
theorem sorterDone_err_finished :
    ∀ (ids : List TaskId) (G : Graph) (h f : List TaskId),
      (∃ t ∈ ids, t ∈ f) → ∃ m, sorterDone ⟨G, h, f⟩ ids = .error m := by
  intro ids
  induction ids with
  | nil =>
    intro G h f hex
    obtain ⟨t, ht, _⟩ := hex
    simp at ht
  | cons x rest ih =>
    intro G h f hex
    by_cases hx1 : x ∈ allNodes G
    · by_cases hx2 : x ∉ h ∧ x ∉ f
      · exact ⟨_, by simp only [sorterDone]; rw [if_neg (not_not_intro hx1), if_pos hx2]⟩
      · by_cases hx3 : x ∈ f
        · exact ⟨_, by
            simp only [sorterDone]
            rw [if_neg (not_not_intro hx1), if_neg hx2, if_pos hx3]⟩
        · have hx2' : x ∈ h := by
            by_contra hxh
            exact hx2 ⟨hxh, hx3⟩
          rw [sorterDone_step hx1 hx2' hx3]
          obtain ⟨t, htmem, htf⟩ := hex
          rcases List.mem_cons.mp htmem with rfl | htrest
          · exact absurd htf hx3
          · exact ih G (h.erase x) (x :: f) ⟨t, htrest, List.mem_cons_of_mem _ htf⟩
    · exact ⟨_, by simp only [sorterDone]; rw [if_pos hx1]⟩

/-- `done` on an id that was never added to the sorter raises `ValueError`. -/
theorem sorterDone_err_unknown :
    ∀ (ids : List TaskId) (G : Graph) (h f : List TaskId),
      (∃ t ∈ ids, t ∉ allNodes G) → ∃ m, sorterDone ⟨G, h, f⟩ ids = .error m := by
  intro ids
  induction ids with
  | nil =>
    intro G h f hex
    obtain ⟨t, ht, _⟩ := hex
    simp at ht
  | cons x rest ih =>
    intro G h f hex
    by_cases hx1 : x ∈ allNodes G
    · by_cases hx2 : x ∉ h ∧ x ∉ f
      · exact ⟨_, by simp only [sorterDone]; rw [if_neg (not_not_intro hx1), if_pos hx2]⟩
      · by_cases hx3 : x ∈ f
        · exact ⟨_, by
            simp only [sorterDone]
            rw [if_neg (not_not_intro hx1), if_neg hx2, if_pos hx3]⟩
        · have hx2' : x ∈ h := by
            by_contra hxh
            exact hx2 ⟨hxh, hx3⟩
          rw [sorterDone_step hx1 hx2' hx3]
          obtain ⟨t, htmem, hta⟩ := hex
          rcases List.mem_cons.mp htmem with rfl | htrest
          · exact absurd hx1 hta
          · exact ih G (h.erase x) (x :: f) ⟨t, htrest, hta⟩
    · exact ⟨_, by simp only [sorterDone]; rw [if_pos hx1]⟩

/-- On success, every id in the batch was currently passed out. -/
theorem sorterDone_ok_handed :
    ∀ (ids : List TaskId) (G : Graph) (h f : List TaskId) (s' : TopoSorter),
      sorterDone ⟨G, h, f⟩ ids = .ok s' → ∀ t ∈ ids, t ∈ h := by
  intro ids
  induction ids with
  | nil => intro G h f s' _ t ht; simp at ht
  | cons x rest ih =>
    intro G h f s' hok t ht
    by_cases hx1 : x ∈ allNodes G
    · by_cases hx2 : x ∉ h ∧ x ∉ f
      · rw [show sorterDone ⟨G, h, f⟩ (x :: rest) = .error _ from by
          simp only [sorterDone]; rw [if_neg (not_not_intro hx1), if_pos hx2]] at hok
        cases hok
      · by_cases hx3 : x ∈ f
        · rw [show sorterDone ⟨G, h, f⟩ (x :: rest) = .error _ from by
            simp only [sorterDone]
            rw [if_neg (not_not_intro hx1), if_neg hx2, if_pos hx3]] at hok
          cases hok
        · have hx2' : x ∈ h := by
            by_contra hxh
            exact hx2 ⟨hxh, hx3⟩
          rw [sorterDone_step hx1 hx2' hx3] at hok
          rcases List.mem_cons.mp ht with rfl | htrest
          · exact hx2'
          · exact List.mem_of_mem_erase (ih G (h.erase x) (x :: f) s' hok t htrest)
    · rw [show sorterDone ⟨G, h, f⟩ (x :: rest) = .error _ from by
        simp only [sorterDone]; rw [if_pos hx1]] at hok
      cases hok

/-- `get_ready_tasks` only ever appends the returned ids to the passed-out
set. -/
theorem getReadyTasks_handedOut (G : Graph) (s : TopoSorter) :
    ∃ r, getReadyTasks ⟨G, some s, true⟩
      = (r, ⟨G, some { s with handedOut := s.handedOut ++ r }, true⟩) := by
  by_cases hact : sorterIsActive s = false
  · refine ⟨[], ?_⟩
    simp [getReadyTasks, hact]
  · refine ⟨readyList s, ?_⟩
    simp [getReadyTasks, hact, sorterGetReady]

/-! ### The base orchestration loop (claim C3) -/

/-- One result entry per gathered outcome. -/
theorem processTick_length : ∀ pairs, (processTick pairs).1.length = pairs.length := by
  intro pairs
  induction pairs with
  | nil => rfl
  | cons p rest ih =>
    obtain ⟨tid, out⟩ := p
    cases out with
    | error msg => simp [processTick, ih]
    | ok r => simp [processTick, ih, apply_ite List.length]

/-- A raised exception at position `i` yields the synthesized failed result at
position `i`. -/
theorem processTick_get :
    ∀ (pairs : List (TaskId × Except String TaskResult)) (i : Nat)
      (tid : TaskId) (msg : String), pairs[i]? = some (tid, Except.error msg) →
      (processTick pairs).1[i]? = some (mkFailedResult tid msg) := by
  intro pairs
  induction pairs with
  | nil => intro i tid msg h; simp at h
  | cons p rest ih =>
    intro i tid msg h
    obtain ⟨tid', out'⟩ := p
    cases i with
    | zero =>
      simp at h
      obtain ⟨h1, h2⟩ := h
      subst h1; subst h2
      simp [processTick]
    | succ j =>
      simp only [List.getElem?_cons_succ] at h
      have := ih j tid msg h
      cases out' with
      | error m => simpa [processTick] using this
      | ok r =>
        by_cases hst : r.status = .failed
        · simpa [processTick, hst] using this
        · simpa [processTick, hst] using this

/-- Every gathered outcome's task id — whether the task raised, failed, or
succeeded — lands in the tick's batched completion list, which therefore
equals the dispatched ids in order. -/
theorem processTick_cids :
    ∀ pairs, (∀ tid out, (tid, out) ∈ pairs → ∀ res, out = .ok res → res.task_id = tid) →
      (processTick pairs).2 = pairs.map Prod.fst := by
  intro pairs
  induction pairs with
  | nil => intro _; rfl
  | cons p rest ih =>
    intro hh
    obtain ⟨tid, out⟩ := p
    have hrest := ih (fun t o hmem res hres => hh t o (List.mem_cons_of_mem _ hmem) res hres)
    cases out with
    | error msg => simp [processTick, hrest]
    | ok r =>
      have hr : r.task_id = tid := hh tid (.ok r) (by simp) r rfl
      by_cases hst : r.status = .failed
      · simp [processTick, hrest, hst, hr]
      · simp [processTick, hrest, hst, hr]

/-- An outcome zipped against the dispatched ids is the executor's outcome
for that id. -/
theorem zip_map_mem {r : List TaskId} {ex : TaskId → Except String TaskResult} :
    ∀ tid out, (tid, out) ∈ r.zip (r.map ex) → out = ex tid := by
  induction r with
  | nil => intro tid out h; simp at h
  | cons a rest ih =>
    intro tid out h
    simp only [List.map_cons, List.zip_cons_cons, List.mem_cons] at h
    rcases h with h | h
    · injection h with h1 h2
      subst h1; subst h2
      rfl
    · exact ih tid out h

/-- With an acyclic built graph and an executor whose returned results carry
their own task id, the base loop runs to completion — per-task failures
included — returning one result entry per drained task and never raising. -/
theorem orchestrate_ok (G : Graph) (hnc : ¬ HasCycle G)
    (ex : TaskId → Except String TaskResult)
    (hex : ∀ tid res, ex tid = .ok res → res.task_id = tid) :
    ∀ fuel (f results : List _), f.Nodup → (∀ t ∈ f, t ∈ allNodes G) →
      (allNodes G).length - f.length < fuel →
      ∃ res dgf, orchestrate ex fuel ⟨G, some ⟨G, [], f⟩, true⟩ results = (.ok res, dgf) ∧
        res.length = results.length + ((allNodes G).length - f.length) := by
  intro fuel
  induction fuel with
  | zero => intro f results _ _ h; omega
  | succ s ih =>
    intro f results hfnd hfall hcount
    by_cases hr : readyList ⟨G, [], f⟩ = []
    · have hall : ∀ u ∈ allNodes G, u ∈ f := by
        intro u hu
        by_contra huf
        exact (ready_progress hnc hu huf) hr
      have hlen0 : (allNodes G).length ≤ f.length :=
        (List.subperm_of_subset (allNodes_nodup G) hall).length_le
      have hact : graphIsActive ⟨G, some ⟨G, [], f⟩, true⟩ = false := by
        simp [graphIsActive, sorterIsActive, hr]
      refine ⟨results, ⟨G, some ⟨G, [], f⟩, true⟩, ?_, by omega⟩
      simp [orchestrate, hact]
    · set r := readyList ⟨G, [], f⟩ with hrdef
      have hact : graphIsActive ⟨G, some ⟨G, [], f⟩, true⟩ = true := by
        simp [graphIsActive, sorterIsActive, List.isEmpty_iff, hr]
      have hrlen : 1 ≤ r.length := by
        cases hrl : r with
        | nil => exact absurd hrl hr
        | cons a l => simp [hrl]
      have hcids : (processTick (r.zip (r.map ex))).2 = r := by
        rw [processTick_cids _ ?_]
        · exact List.map_fst_zip _ _ (by simp)
        · intro tid out hmem res hres
          have := zip_map_mem tid out hmem
          subst this
          exact hex tid res hres
      have hentries : (processTick (r.zip (r.map ex))).1.length = r.length := by
        rw [processTick_length]
        simp [List.length_zip]
      have hrmem : ∀ t ∈ r, t ∈ allNodes G ∧ t ∉ f := by
        intro t ht
        obtain ⟨h1, _, _, h4⟩ := mem_readyList.mp ht
        exact ⟨h1, h4⟩
      have hf'nd : (r.reverse ++ f).Nodup := by
        rw [List.nodup_append]
        exact ⟨List.nodup_reverse.mpr (readyList_nodup _), hfnd,
          fun a ha hb => (hrmem a (List.mem_reverse.mp ha)).2 hb⟩
      have hf'all : ∀ t ∈ r.reverse ++ f, t ∈ allNodes G := by
        intro t ht
        rcases List.mem_append.mp ht with h | h
        · exact (hrmem t (List.mem_reverse.mp h)).1
        · exact hfall t h
      have hf'len : r.length + f.length ≤ (allNodes G).length := by
        have := (List.subperm_of_subset hf'nd hf'all).length_le
        simpa [List.length_append, List.length_reverse] using this
      obtain ⟨res, dgf, heq, hlen⟩ := ih (r.reverse ++ f)
        (results ++ (processTick (r.zip (r.map ex))).1) hf'nd hf'all
        (by rw [List.length_append, List.length_reverse]; omega)
      refine ⟨res, dgf, ?_, ?_⟩
      · simp only [orchestrate, hact, getReadyTasks_active hr]
        rw [if_neg (by simp)]
        rw [if_neg (by simpa [List.isEmpty_iff] using hr)]
        rw [if_neg (by rw [hcids]; simpa [List.isEmpty_iff] using hr)]
        rw [hcids, markCompleted_round hr]
        exact heq
      · rw [hlen, List.length_append, hentries, List.length_append, List.length_reverse]
        omega

/-! ### Retry policy (claim C5) -/

/-- The attempt loop never calls `fn` more often than the attempts it was
given. -/
theorem retryAux_calls_le {α : Type} (fn : Nat → Except PyExc α) (base : Nat) :
    ∀ k attempt, (retryAux fn base k attempt).2.1 ≤ k := by
  intro k
  induction k with
  | zero => intro attempt; simp [retryAux]
  | succ k ih =>
    intro attempt
    simp only [retryAux]
    cases fn attempt with
    | ok v => simp
    | error e =>
      by_cases hperm : classifyError e = .permanent
      · simp [hperm]
      · by_cases hk : k = 0
        · simp [hperm, hk]
        · rcases hrec : retryAux fn base k (attempt + 1) with ⟨res, calls, sleeps⟩
          have := ih (attempt + 1)
          rw [hrec] at this
          simp only at this
          simp [hperm, hk, hrec]
          omega

/-- A first failure classified permanent aborts after exactly one call, with
no sleeps, re-raising that error. -/
theorem retry_permanent {α : Type} (fn : Nat → Except PyExc α) (base maxA : Nat)
    (e : PyExc) (hmax : 1 ≤ maxA) (h1 : fn 1 = .error e)
    (hperm : classifyError e = .permanent) :
    executeWithRetry fn maxA base = (.error e, 1, []) := by
  obtain ⟨k, rfl⟩ : ∃ k, maxA = k + 1 := ⟨maxA - 1, by omega⟩
  unfold executeWithRetry
  simp only [retryAux]
  rw [h1]
  simp [hperm]

/-- When every attempt from `attempt` on fails non-permanently, the loop
makes exactly the remaining number of calls, sleeps
`base * 2 ^ (a - 1)` after each non-final attempt `a`, and re-raises the last
attempt's error. -/
theorem retry_exhaust {α : Type} (fn : Nat → Except PyExc α) (base : Nat) :
    ∀ k attempt, 1 ≤ attempt → 1 ≤ k →
      (∀ a, attempt ≤ a → a < attempt + k →
        ∃ e, fn a = .error e ∧ classifyError e ≠ .permanent) →
      ∃ e, fn (attempt + k - 1) = .error e ∧
        retryAux fn base k attempt =
          (.error e, k, (List.range (k - 1)).map fun i => base * 2 ^ (attempt - 1 + i)) := by
  intro k
  induction k with
  | zero => intro attempt _ h2 _; omega
  | succ k ih =>
    intro attempt hatt _ hfail
    by_cases hk : k = 0
    · subst hk
      obtain ⟨e, he, hne⟩ := hfail attempt (le_refl _) (by omega)
      refine ⟨e, by simpa using he, ?_⟩
      simp only [retryAux]
      rw [he]
      simp [hne]
    · obtain ⟨e0, he0, hne0⟩ := hfail attempt (le_refl _) (by omega)
      obtain ⟨e, he, heq⟩ := ih (attempt + 1) (by omega) (by omega)
        (fun a ha1 ha2 => hfail a (by omega) (by omega))
      refine ⟨e, by
        have : attempt + 1 + k - 1 = attempt + (k + 1) - 1 := by omega
        rwa [this] at he, ?_⟩
      have hmap : (List.range (k + 1 - 1)).map (fun i => base * 2 ^ (attempt - 1 + i))
          = base * 2 ^ (attempt - 1) ::
            (List.range (k - 1)).map (fun i => base * 2 ^ (attempt + 1 - 1 + i)) := by
        have h1 : k + 1 - 1 = (k - 1) + 1 := by omega
        rw [h1, List.range_succ_eq_map, List.map_cons, List.map_map]
        rw [List.cons_eq_cons]
        constructor
        · simp
        · apply List.map_congr_left
          intro i _
          simp only [Function.comp_apply, Nat.succ_eq_add_one]
          have h2 : attempt - 1 + (i + 1) = attempt + 1 - 1 + i := by omega
          rw [h2]
      simp only [retryAux, he0]
      rw [if_neg hne0, if_neg hk, heq, hmap]

/-- Top-level exhaustion: with `max_attempts` failing non-permanent attempts
the loop calls `fn` exactly `max_attempts` times, sleeps
`base, 2*base, 4*base, …` between attempts, and re-raises the final error. -/
theorem executeWithRetry_exhaust {α : Type} (fn : Nat → Except PyExc α)
    (base maxA : Nat) (hmax : 1 ≤ maxA)
    (hfail : ∀ a, 1 ≤ a → a ≤ maxA →
      ∃ e, fn a = .error e ∧ classifyError e ≠ .permanent) :
    ∃ e, fn maxA = .error e ∧
      executeWithRetry fn maxA base =
        (.error e, maxA, (List.range (maxA - 1)).map fun i => base * 2 ^ i) := by
  obtain ⟨e, he, heq⟩ := retry_exhaust fn base maxA 1 (le_refl _) hmax
    (fun a h1 h2 => hfail a h1 (by omega))
  refine ⟨e, by simpa using he, ?_⟩
  unfold executeWithRetry
  have hmap2 : (List.range (maxA - 1)).map (fun i => base * 2 ^ (1 - 1 + i))
      = (List.range (maxA - 1)).map fun i => base * 2 ^ i := by
    apply List.map_congr_left
    intro i _
    simp
  rw [heq, hmap2]

/-! ### Executor cleanup (claim C8) -/

/-- `execute_task` cleanup: when the pool can supply an idle agent, the call
returns the inner execution's outcome (re-raising its exception unchanged),
and on that exit path the used agent ends Idle with no current task, the task
id is gone from the active set, and the agent release strictly precedes the
active-set removal. -/
theorem executeTask_cleanup (st : ExecState) (tid : TaskId)
    (outcome : Except String TaskResult) (hnd : st.active_tasks.Nodup)
    (hidle : ∃ a ∈ st.agents, a.status = .idle) :
    ∃ a res st' ev, getIdleAgent st.agents = some a ∧
      executeTask st tid outcome = some (res, st', ev) ∧
      res = outcome ∧
      (∀ b ∈ st'.agents, b.id = a.id → b.status = .idle ∧ b.current_task = none) ∧
      tid ∉ st'.active_tasks ∧
      ev = [.markedIdle a.id, .removedActive tid] := by
  cases hfind : getIdleAgent st.agents with
  | none =>
    exfalso
    obtain ⟨a, ha, hsta⟩ := hidle
    unfold getIdleAgent at hfind
    rw [List.find?_eq_none] at hfind
    exact hfind a ha (by simp [hsta])
  | some a =>
    have hactive : (if tid ∈ st.active_tasks then st.active_tasks
        else st.active_tasks ++ [tid]).Nodup := by
      by_cases h : tid ∈ st.active_tasks
      · simpa [h] using hnd
      · rw [if_neg h, List.nodup_append]
        exact ⟨hnd, List.nodup_singleton _, fun x hx hx' => by
          simp at hx'
          exact h (hx' ▸ hx)⟩
    have hagents : ∀ b ∈ setAgent (setAgent st.agents a.id .busy (some tid)) a.id .idle none,
        b.id = a.id → b.status = .idle ∧ b.current_task = none := by
      intro b hb hbid
      unfold setAgent at hb
      rw [List.mem_map] at hb
      obtain ⟨x, _, hx⟩ := hb
      by_cases hxa : x.id = a.id
      · rw [if_pos hxa] at hx
        rw [← hx]
        exact ⟨rfl, rfl⟩
      · rw [if_neg hxa] at hx
        rw [← hx] at hbid
        exact absurd hbid hxa
    have hnotmem : tid ∉ (if tid ∈ st.active_tasks then st.active_tasks
        else st.active_tasks ++ [tid]).erase tid := by
      intro hmem
      have := (List.Nodup.mem_erase_iff hactive).mp hmem
      exact this.1 rfl
    cases outcome with
    | ok r =>
      have hexec : executeTask st tid (.ok r) = some (.ok r,
          ⟨setAgent (setAgent st.agents a.id .busy (some tid)) a.id .idle none,
            (if tid ∈ st.active_tasks then st.active_tasks
              else st.active_tasks ++ [tid]).erase tid,
            st.task_results ++ [(tid, r)]⟩,
          [.markedIdle a.id, .removedActive tid]) := by
        simp [executeTask, hfind]
      exact ⟨a, .ok r, _, _, rfl, hexec, rfl, hagents, hnotmem, rfl⟩
    | error e =>
      have hexec : executeTask st tid (.error e) = some (.error e,
          ⟨setAgent (setAgent st.agents a.id .busy (some tid)) a.id .idle none,
            (if tid ∈ st.active_tasks then st.active_tasks
              else st.active_tasks ++ [tid]).erase tid,
            st.task_results⟩,
          [.markedIdle a.id, .removedActive tid]) := by
        simp [executeTask, hfind]
      exact ⟨a, .error e, _, _, rfl, hexec, rfl, hagents, hnotmem, rfl⟩

/-! ### Validator report structure (claim C6) -/

/-- The report's validity flag records exactly "no cycle detected". -/
theorem validate_is_valid (g : Graph) :
    (validate g).is_valid = (detectCycles g).isEmpty := rfl

/-- The report's cycle list is the detector's output. -/
theorem validate_cycles (g : Graph) :
    (validate g).cycles = detectCycles g := rfl

/-! ## Claim theorems -/

/-- C1: the claim states that any error raised by `add_dynamic_tasks` leaves
the live graph's edge map and built flag exactly as before the call, with no
batch task present and nothing enqueued.  The code has no snapshot/rollback:
against the built graph `{A: {}, B: {}}`, the batch `{A: deps {B}, B: deps
{A}}` passes the per-task validation (each task is checked alone against the
live graph), both upserts are applied, and the rebuild then raises — leaving
the rewired cyclic edge map and a cleared built flag behind, only the queue
untouched.  This theorem evaluates the embedded code at that input. -/
theorem claim_C1_rollback_violated :
    (addDynamicTasks
        ⟨⟨[("A", []), ("B", [])], some ⟨[("A", []), ("B", [])], [], []⟩, true⟩, [], []⟩
        [("A", ⟨.collection ["B"]⟩), ("B", ⟨.collection ["A"]⟩)]).1
      = .error (.dynamicTaskRegistrationError
          "Unexpected cycle detected during rebuild: Cycle detected in dependency graph: nodes are in a cycle"
          none) ∧
    (addDynamicTasks
        ⟨⟨[("A", []), ("B", [])], some ⟨[("A", []), ("B", [])], [], []⟩, true⟩, [], []⟩
        [("A", ⟨.collection ["B"]⟩), ("B", ⟨.collection ["A"]⟩)]).2.dep_graph
      = ⟨[("A", ["B"]), ("B", ["A"])], none, false⟩ ∧
    (addDynamicTasks
        ⟨⟨[("A", []), ("B", [])], some ⟨[("A", []), ("B", [])], [], []⟩, true⟩, [], []⟩
        [("A", ⟨.collection ["B"]⟩), ("B", ⟨.collection ["A"]⟩)]).2.new_tasks_queue
      = [] ∧
    [("A", (["B"] : List TaskId)), ("B", ["A"])] ≠ [("A", []), ("B", [])] := by
  refine ⟨by decide, by decide, by decide, by decide⟩

/-- C4: the claim states that in `orchestrate_with_early_termination` a
failed non-critical task is handled exactly as in the base loop, in
particular that its id is still marked completed that tick.  The code only
collects ids of results whose status is not FAILED (and never collects the
id of a raised exception), so a failed non-critical task is never marked
completed and its dependents can never become ready.  This theorem evaluates
the variant's per-tick loop on a failed result and on a raised exception
(empty completion list both times), and shows that only a critical failure
aborts the run. -/
theorem claim_C4_failed_not_marked :
    processTickET ["crit"] [("a", .ok ⟨"a", .failed, some "boom"⟩)]
      = .ok ([⟨"a", .failed, some "boom"⟩], []) ∧
    processTickET ["crit"] [("b", .error "kaput")]
      = .ok ([mkFailedResult "b" "kaput"], []) ∧
    processTickET ["crit"] [("crit", .ok ⟨"crit", .failed, some "x"⟩)]
      = .error (.orchestrationError "Critical task 'crit' failed: x" (some "crit")) ∧
    (processTick [("a", .ok ⟨"a", .failed, some "boom"⟩)]).2 = ["a"] := by
  refine ⟨by decide, by decide, by decide, by decide⟩

/-- C7: the claim states that a batch is accepted whenever every dependency
reference resolves in the live graph, the completed set, or the batch
itself.  The code validates the whole batch before adding anything, and
`_validate_dependencies_exist` only consults the live graph and the
completed set — so a dependency on another (new) task of the same batch is
rejected, contradicting the claim (and the repository's own
`test_batch_with_internal_dependencies`).  This theorem evaluates the
embedded code on the acyclic batch `{a: deps {task-1}, b: deps {a}}` against
the live graph `{task-1: {}}`: the call raises instead of accepting. -/
theorem claim_C7_batch_internal_rejected :
    (addDynamicTasks
        ⟨⟨[("task-1", [])], some ⟨[("task-1", [])], [], []⟩, true⟩, [], []⟩
        [("a", ⟨.collection ["task-1"]⟩), ("b", ⟨.collection ["a"]⟩)]).1
      = .error (.dynamicTaskRegistrationError
          "Task b depends on non-existent task a. Dependencies must reference existing tasks."
          (some "b")) ∧
    (addDynamicTasks
        ⟨⟨[("task-1", [])], some ⟨[("task-1", [])], [], []⟩, true⟩, [], []⟩
        [("a", ⟨.collection ["task-1"]⟩), ("b", ⟨.collection ["a"]⟩)]).2
      = ⟨⟨[("task-1", [])], some ⟨[("task-1", [])], [], []⟩, true⟩, [], []⟩ := by
  refine ⟨by decide, by decide⟩

/-- C9 counterexample: the claim includes "reset_agent … is the only
transition out of Failed", i.e. no other operation may move a Failed worker
to a different status.  `mark_idle` moves a Failed worker straight to Idle,
refuting that conjunct at the concrete worker `⟨0, Failed, none⟩`. -/
theorem claim_C9_counterexample :
    ¬ (∀ a : ManagedAgent, a.status = .failed → (markIdle a).status = .failed) := by
  intro h
  have := h ⟨0, .failed, none⟩ rfl
  simp [markIdle] at this

/-- C9 (amended): every worker-status operation behaves as claimed —
`mark_busy` succeeds and records the task iff the worker is Idle,
`reset_agent` succeeds iff the worker is Failed, and `mark_idle` /
`mark_failed` succeed from any status clearing the current task — except
that `reset_agent` is not the only transition out of Failed (`mark_idle`
also moves Failed to Idle, as its own clause says). -/
theorem claim_C9_state_machine :
    (∀ (a : ManagedAgent) (tid : TaskId),
      (markBusy a tid).isOk = true ↔ a.status = .idle) ∧
    (∀ (a a' : ManagedAgent) (tid : TaskId), markBusy a tid = .ok a' →
      a'.status = .busy ∧ a'.current_task = some tid) ∧
    (∀ a : ManagedAgent, (resetAgent a).isOk = true ↔ a.status = .failed) ∧
    (∀ a a' : ManagedAgent, resetAgent a = .ok a' →
      a'.status = .idle ∧ a'.current_task = none) ∧
    (∀ a : ManagedAgent, (markIdle a).status = .idle ∧ (markIdle a).current_task = none) ∧
    (∀ (a : ManagedAgent) (e : Option String),
      (markFailed a e).status = .failed ∧ (markFailed a e).current_task = none) := by
  refine ⟨?_, ?_, ?_, ?_, ?_, ?_⟩
  · intro a tid
    unfold markBusy
    by_cases h : a.status = .idle
    · simp [h, Except.isOk, Except.toBool]
    · simp [h, Except.isOk, Except.toBool]
  · intro a a' tid h
    unfold markBusy at h
    by_cases hs : a.status = .idle
    · rw [if_neg (not_not_intro hs)] at h
      injection h with h
      rw [← h]
      exact ⟨rfl, rfl⟩
    · rw [if_pos hs] at h
      cases h
  · intro a
    unfold resetAgent
    by_cases h : a.status = .failed
    · simp [h, Except.isOk, Except.toBool]
    · simp [h, Except.isOk, Except.toBool]
  · intro a a' h
    unfold resetAgent at h
    by_cases hs : a.status = .failed
    · rw [if_neg (not_not_intro hs)] at h
      injection h with h
      rw [← h]
      exact ⟨rfl, rfl⟩
    · rw [if_pos hs] at h
      cases h
  · intro a
    exact ⟨rfl, rfl⟩
  · intro a e
    exact ⟨rfl, rfl⟩

/-- C9 witness: the amended state machine at concrete workers. -/
theorem claim_C9_witness :
    (markBusy ⟨0, .idle, none⟩ "t").isOk = true ∧
    (resetAgent ⟨1, .failed, none⟩).isOk = true := by
  obtain ⟨h1, _, h3, _, _, _⟩ := claim_C9_state_machine
  exact ⟨(h1 ⟨0, .idle, none⟩ "t").mpr rfl, (h3 ⟨1, .failed, none⟩).mpr rfl⟩

/-- C2: on every graph that `build()` accepted (hence acyclic), repeatedly
taking `get_ready_tasks()` and marking the returned ids completed visits
every node of the topological engine exactly once (the drained rounds are
duplicate-free and cover exactly `allNodes`), hands a task out only after
every one of its dependencies was marked completed in an earlier round, and
`get_ready_tasks()` returns the empty tuple on any unbuilt graph. -/
theorem claim_C2_topological_drain (dg0 dg : DependencyGraph)
    (hb : buildG dg0 = .ok dg) :
    ((drainRounds dg ((allNodes dg.graph).length + 1)).flatten.Nodup ∧
      (∀ t, t ∈ (drainRounds dg ((allNodes dg.graph).length + 1)).flatten ↔
        t ∈ allNodes dg.graph) ∧
      (∀ i u, u ∈ (drainRounds dg ((allNodes dg.graph).length + 1)).getD i [] →
        ∀ d ∈ lookupDeps dg.graph u,
          d ∈ ((drainRounds dg ((allNodes dg.graph).length + 1)).take i).flatten)) ∧
    (∀ dgu : DependencyGraph, dgu.isBuilt = false → (getReadyTasks dgu).1 = []) := by
  obtain ⟨hform, hnc⟩ := buildG_ok_inv hb
  subst hform
  obtain ⟨hnd, hmem, hord⟩ := drainRounds_spec dg0.graph hnc
    ((allNodes dg0.graph).length + 1) [] (by simp) (by simp) (by simp)
  refine ⟨⟨hnd, ?_, ?_⟩, getReadyTasks_unbuilt⟩
  · intro t
    rw [hmem t]
    simp
  · intro i u hu d hd
    rcases hord i u hu d hd with h | h
    · simp at h
    · exact h

/-- C2 witness: the diamond-free graph `{A: {}, B: {A}, C: {A}}` builds, and
the drained rounds contain `B`. -/
theorem claim_C2_witness :
    buildG ⟨[("A", []), ("B", ["A"]), ("C", ["A"])], none, false⟩
      = .ok ⟨[("A", []), ("B", ["A"]), ("C", ["A"])],
          some ⟨[("A", []), ("B", ["A"]), ("C", ["A"])], [], []⟩, true⟩ ∧
    "B" ∈ (drainRounds
      ⟨[("A", []), ("B", ["A"]), ("C", ["A"])],
        some ⟨[("A", []), ("B", ["A"]), ("C", ["A"])], [], []⟩, true⟩
      ((allNodes [("A", []), ("B", ["A"]), ("C", ["A"])]).length + 1)).flatten := by
  have h := claim_C2_topological_drain
    ⟨[("A", []), ("B", ["A"]), ("C", ["A"])], none, false⟩
    ⟨[("A", []), ("B", ["A"]), ("C", ["A"])],
      some ⟨[("A", []), ("B", ["A"]), ("C", ["A"])], [], []⟩, true⟩ (by decide)
  exact ⟨by decide, (h.1.2.1 "B").mpr (by decide)⟩

/-- C3: the base loop yields exactly one result entry per dispatched task; a
raised exception at a position becomes the synthesized Failed outcome
carrying the exception's message; every gathered outcome's id — success,
Failed, or raised — lands in the tick's single batched `mark_completed`
list; and on a built graph with an executor whose returned results carry
their own id, the whole loop returns `.ok` with one entry per drained node
— per-task failures never make `orchestrate()` raise. -/
theorem claim_C3_loop :
    (∀ pairs, (processTick pairs).1.length = pairs.length) ∧
    (∀ (pairs : List (TaskId × Except String TaskResult)) (i : Nat)
      (tid : TaskId) (msg : String), pairs[i]? = some (tid, Except.error msg) →
      (processTick pairs).1[i]? = some (mkFailedResult tid msg)) ∧
    (∀ pairs, (∀ tid out, (tid, out) ∈ pairs →
        ∀ res, out = .ok res → res.task_id = tid) →
      (processTick pairs).2 = pairs.map Prod.fst) ∧
    (∀ (dg0 dg : DependencyGraph) (ex : TaskId → Except String TaskResult),
      buildG dg0 = .ok dg →
      (∀ tid res, ex tid = .ok res → res.task_id = tid) →
      ∃ res dgf, orchestrate ex ((allNodes dg.graph).length + 1) dg [] = (.ok res, dgf) ∧
        res.length = (allNodes dg.graph).length) := by
  refine ⟨processTick_length, processTick_get, processTick_cids, ?_⟩
  intro dg0 dg ex hb hex
  obtain ⟨hform, hnc⟩ := buildG_ok_inv hb
  subst hform
  obtain ⟨res, dgf, heq, hlen⟩ := orchestrate_ok dg0.graph hnc ex hex
    ((allNodes dg0.graph).length + 1) [] [] (by simp) (by simp) (by simp)
  exact ⟨res, dgf, heq, by simpa using hlen⟩

/-- C3 witness: a raised exception becomes a Failed entry and the concrete
two-task run (one task raising) completes with two result entries. -/
theorem claim_C3_witness :
    (processTick [("a", Except.error "boom")]).1.length = 1 ∧
    (processTick [("a", Except.error "boom")]).2 = ["a"] ∧
    (∃ res dgf, orchestrate exWitness
        ((allNodes [("a", []), ("b", ["a"])]).length + 1)
        ⟨[("a", []), ("b", ["a"])], some ⟨[("a", []), ("b", ["a"])], [], []⟩, true⟩ []
      = (.ok res, dgf) ∧
      res.length = (allNodes [("a", []), ("b", ["a"])]).length) := by
  obtain ⟨h1, _, h3, h4⟩ := claim_C3_loop
  refine ⟨h1 _, h3 _ ?_, h4 ⟨[("a", []), ("b", ["a"])], none, false⟩ _ exWitness (by decide) ?_⟩
  · intro tid out hmem res hres
    simp at hmem
    rw [hmem.2] at hres
    cases hres
  · intro tid res h
    unfold exWitness at h
    by_cases htid : tid = "a"
    · rw [if_pos htid] at h
      cases h
    · rw [if_neg htid] at h
      injection h with h
      rw [← h]

/-- C5: `execute_with_retry` makes exactly one call when the first failure is
classified Permanent, re-raising that error with no backoff sleeps; it never
makes more calls than `max_attempts`; and when every attempt fails with a
non-Permanent (Transient or Unknown) classification it makes exactly
`max_attempts` calls, sleeps `base * 2^(attempt-1)` after each non-final
attempt (delays `base, 2*base, 4*base, …`), and re-raises the last error. -/
theorem claim_C5_retry :
    (∀ {α : Type} (fn : Nat → Except PyExc α) (base maxA : Nat) (e : PyExc),
      1 ≤ maxA → fn 1 = .error e → classifyError e = .permanent →
      executeWithRetry fn maxA base = (.error e, 1, [])) ∧
    (∀ {α : Type} (fn : Nat → Except PyExc α) (base maxA : Nat),
      (executeWithRetry fn maxA base).2.1 ≤ maxA) ∧
    (∀ {α : Type} (fn : Nat → Except PyExc α) (base maxA : Nat), 1 ≤ maxA →
      (∀ a, 1 ≤ a → a ≤ maxA → ∃ e, fn a = .error e ∧ classifyError e ≠ .permanent) →
      ∃ e, fn maxA = .error e ∧
        executeWithRetry fn maxA base =
          (.error e, maxA, (List.range (maxA - 1)).map fun i => base * 2 ^ i)) := by
  refine ⟨?_, ?_, ?_⟩
  · intro α fn base maxA e hmax h1 hperm
    exact retry_permanent fn base maxA e hmax h1 hperm
  · intro α fn base maxA
    exact retryAux_calls_le fn base maxA 1
  · intro α fn base maxA hmax hfail
    exact executeWithRetry_exhaust fn base maxA hmax hfail

/-- C5 witness: a permanently-classified error ("Invalid input") under
`max_attempts = 5` makes exactly one call; a transient error ("Connection
timeout") under `max_attempts = 3`, `base = 10` makes 3 calls with sleeps
`10, 20`. -/
theorem claim_C5_witness :
    executeWithRetry retryFnPermanent 5 30
      = (.error ⟨none, false, "Invalid input"⟩, 1, []) ∧
    (∃ e, retryFnTransient 3 = .error e ∧
      executeWithRetry retryFnTransient 3 10 = (.error e, 3, [10, 20])) := by
  obtain ⟨h1, _, h3⟩ := claim_C5_retry
  constructor
  · exact h1 retryFnPermanent 30 5 ⟨none, false, "Invalid input"⟩ (by omega) rfl (by decide)
  · obtain ⟨e, he, heq⟩ := h3 retryFnTransient 10 3 (by omega)
      (fun a _ _ => ⟨⟨none, false, "Connection timeout"⟩, rfl, by decide⟩)
    exact ⟨e, he, by rw [heq]; rfl⟩

/-- C6: `build()` raises `CycleDetectedError` on every graph containing a
cycle; the validator's `is_valid` flag is false exactly when the graph has a
cycle (so missing references and orphans, which only add warnings, leave it
true); and every reported cycle is a path whose first and last entries are
the same task id. -/
theorem claim_C6_cycle_detection :
    (∀ dg : DependencyGraph, HasCycle dg.graph →
      ∃ m, buildG dg = .error (.cycleDetectedError m)) ∧
    (∀ g : Graph, ((validate g).is_valid = false ↔ HasCycle g)) ∧
    (∀ (g : Graph) (c : List TaskId), c ∈ (validate g).cycles →
      c ≠ [] ∧ c.head? = c.getLast?) ∧
    (∀ g : Graph, ¬ HasCycle g → (validate g).is_valid = true) := by
  have hvalid : ∀ g : Graph, ((validate g).is_valid = false ↔ HasCycle g) := by
    intro g
    rw [validate_is_valid]
    rw [← detectCycles_iff g]
    by_cases hd : detectCycles g = []
    · simp [hd]
    · constructor
      · intro _; exact hd
      · intro _
        simpa [List.isEmpty_iff] using hd
  refine ⟨fun dg hc => buildG_cycle hc, hvalid, ?_, ?_⟩
  · intro g c hc
    rw [validate_cycles] at hc
    exact detectCycles_first_last g c hc
  · intro g hnc
    have := hvalid g
    cases hval : (validate g).is_valid with
    | false => exact absurd (this.mp hval) hnc
    | true => rfl

/-- C6 witness: the 2-cycle `{a: {b}, b: {a}}` makes `build()` raise and the
validator invalid; and a graph whose only flaw is a missing reference stays
valid. -/
theorem claim_C6_witness :
    HasCycle [("a", ["b"]), ("b", ["a"])] ∧
    (∃ m, buildG ⟨[("a", ["b"]), ("b", ["a"])], none, false⟩
      = .error (.cycleDetectedError m)) ∧
    (validate [("a", ["b"]), ("b", ["a"])]).is_valid = false ∧
    (validate [("x", ["ghost"])]).is_valid = true := by
  have e1 : edgeR [("a", ["b"]), ("b", ["a"])] "a" "b" := by decide
  have e2 : edgeR [("a", ["b"]), ("b", ["a"])] "b" "a" := by decide
  have hcyc : HasCycle [("a", ["b"]), ("b", ["a"])] :=
    ⟨"a", Relation.TransGen.head e1 (Relation.TransGen.single e2)⟩
  obtain ⟨h1, h2, _, _⟩ := claim_C6_cycle_detection
  exact ⟨hcyc, h1 ⟨[("a", ["b"]), ("b", ["a"])], none, false⟩ hcyc,
    (h2 _).mpr hcyc, by decide⟩

/-- C8: whenever `execute_task` can obtain a worker (the call returns at
all), every exit path — returned result or re-raised exception — leaves the
used worker Idle with no current task and removes the task id from the
active set, releasing the worker before removing the id. -/
theorem claim_C8_worker_cleanup (st : ExecState) (tid : TaskId)
    (outcome : Except String TaskResult) (hnd : st.active_tasks.Nodup)
    (hidle : ∃ a ∈ st.agents, a.status = .idle) :
    ∃ a res st' ev, getIdleAgent st.agents = some a ∧
      executeTask st tid outcome = some (res, st', ev) ∧
      res = outcome ∧
      (∀ b ∈ st'.agents, b.id = a.id → b.status = .idle ∧ b.current_task = none) ∧
      tid ∉ st'.active_tasks ∧
      ev = [.markedIdle a.id, .removedActive tid] :=
  executeTask_cleanup st tid outcome hnd hidle

/-- C8 witness: a one-worker pool running a task whose execution raises. -/
theorem claim_C8_witness :
    ∃ a res st' ev,
      getIdleAgent (⟨[⟨0, .idle, none⟩], [], []⟩ : ExecState).agents = some a ∧
      executeTask ⟨[⟨0, .idle, none⟩], [], []⟩ "t" (.error "boom")
        = some (res, st', ev) ∧
      res = .error "boom" ∧
      (∀ b ∈ st'.agents, b.id = a.id → b.status = .idle ∧ b.current_task = none) ∧
      "t" ∉ st'.active_tasks ∧
      ev = [.markedIdle a.id, .removedActive "t"] :=
  claim_C8_worker_cleanup ⟨[⟨0, .idle, none⟩], [], []⟩ "t" (.error "boom")
    (by decide) ⟨⟨0, .idle, none⟩, by decide, rfl⟩

/-- C10: on a built graph, `mark_completed` raises `ValueError` whenever some
given id is not currently passed out of `get_ready_tasks` — covering ids
whose prerequisites are unfinished, ids already marked done, and unknown ids
— and succeeds only when every given id is currently passed out;
`get_ready_tasks` is the only operation adding to the passed-out set; and
`rebuild()` resets the sorter (discarding all completion state), after which
marking any nonempty id list raises. -/
theorem claim_C10_mark_completed :
    (∀ (G : Graph) (h f ids : List TaskId), (∃ t ∈ ids, t ∉ h) →
      ∃ m, markCompleted ⟨G, some ⟨G, h, f⟩, true⟩ ids = .error (.valueError m)) ∧
    (∀ (G : Graph) (h f ids : List TaskId), (∃ t ∈ ids, t ∈ f) →
      ∃ m, markCompleted ⟨G, some ⟨G, h, f⟩, true⟩ ids = .error (.valueError m)) ∧
    (∀ (G : Graph) (h f ids : List TaskId), (∃ t ∈ ids, t ∉ allNodes G) →
      ∃ m, markCompleted ⟨G, some ⟨G, h, f⟩, true⟩ ids = .error (.valueError m)) ∧
    (∀ (G : Graph) (h f ids : List TaskId) (dg' : DependencyGraph),
      markCompleted ⟨G, some ⟨G, h, f⟩, true⟩ ids = .ok dg' → ∀ t ∈ ids, t ∈ h) ∧
    (∀ (G : Graph) (s : TopoSorter), ∃ r, getReadyTasks ⟨G, some s, true⟩
      = (r, ⟨G, some { s with handedOut := s.handedOut ++ r }, true⟩)) ∧
    (∀ dg dg' : DependencyGraph, rebuildG dg = .ok dg' →
      dg'.sorter = some ⟨dg.graph, [], []⟩) ∧
    (∀ (dg dg' : DependencyGraph) (ids : List TaskId), rebuildG dg = .ok dg' →
      ids ≠ [] → ∃ m, markCompleted dg' ids = .error (.valueError m)) := by
  have herr : ∀ (G : Graph) (h f ids : List TaskId),
      (∃ m, sorterDone ⟨G, h, f⟩ ids = .error m) → ids ≠ [] →
      ∃ m, markCompleted ⟨G, some ⟨G, h, f⟩, true⟩ ids = .error (.valueError m) := by
    rintro G h f ids ⟨m, hm⟩ hne
    refine ⟨m, ?_⟩
    simp [markCompleted, List.isEmpty_iff, hne, hm]
  refine ⟨?_, ?_, ?_, ?_, getReadyTasks_handedOut, ?_, ?_⟩
  · intro G h f ids hex
    have hdup := hex
    obtain ⟨t, ht, _⟩ := hdup
    exact herr G h f ids (sorterDone_err_notHanded ids G h f hex) (List.ne_nil_of_mem ht)
  · intro G h f ids hex
    have hdup := hex
    obtain ⟨t, ht, _⟩ := hdup
    exact herr G h f ids (sorterDone_err_finished ids G h f hex) (List.ne_nil_of_mem ht)
  · intro G h f ids hex
    have hdup := hex
    obtain ⟨t, ht, _⟩ := hdup
    exact herr G h f ids (sorterDone_err_unknown ids G h f hex) (List.ne_nil_of_mem ht)
  · intro G h f ids dg' hok t ht
    cases hdone : sorterDone ⟨G, h, f⟩ ids with
    | ok s' => exact sorterDone_ok_handed ids G h f s' hdone t ht
    | error m =>
      have hne : ids ≠ [] := List.ne_nil_of_mem ht
      have herr2 : markCompleted ⟨G, some ⟨G, h, f⟩, true⟩ ids
          = .error (.valueError m) := by
        simp [markCompleted, List.isEmpty_iff, hne, hdone]
      rw [herr2] at hok
      cases hok
  · intro dg dg' hre
    obtain ⟨hform, _⟩ := buildG_ok_inv hre
    rw [hform]
  · intro dg dg' ids hre hne
    obtain ⟨hform, _⟩ := buildG_ok_inv hre
    subst hform
    obtain ⟨t, ht⟩ := List.exists_mem_of_ne_nil ids hne
    have hex : ∃ t ∈ ids, t ∉ ([] : List TaskId) := ⟨t, ht, by simp⟩
    exact herr dg.graph [] [] ids (sorterDone_err_notHanded ids dg.graph [] [] hex) hne

/-- C10 witness: marking a never-handed-out id on a freshly built one-node
graph raises `ValueError`. -/
theorem claim_C10_witness :
    ∃ m, markCompleted ⟨[("x", [])], some ⟨[("x", [])], [], []⟩, true⟩ ["x"]
      = .error (.valueError m) := by
  obtain ⟨h1, _, _, _, _, _, _⟩ := claim_C10_mark_completed
  exact h1 [("x", [])] [] [] ["x"] ⟨"x", by decide, by decide⟩

end PCOrch
